import Mathlib

/-
Formal model of `utils/test-error-clustering/cluster.py`.

The Python module normalizes failing-test output with a chain of
`re.sub` calls (`clean_line`), filters and skips lines with a stateful
scanner (`clean_doc`), clusters the retained `TestResult`s, and renders
a Markdown report (`write_markdown`).

Strings are modelled as `String` / `List Char`.  The regular expressions
of the source are embedded as patterns of a small backtracking engine
(`Pat` / `matchEnds` / `pySub`) whose priority order mirrors Python's
`re` semantics for the constructs the source uses: literal sequences,
character classes with counted greedy or lazy repetition, alternation
(left branch first) and the word-boundary assertion.  Character classes
follow the ASCII reading of the Python classes.
-/

namespace ClusterPy

/-- ASCII digit, the regex class `\d`. -/
def isDigit (c : Char) : Bool := '0' ≤ c && c ≤ '9'

/-- ASCII word character, the regex class `\w`: letters, digits, underscore. -/
def isWord (c : Char) : Bool :=
  ('a' ≤ c && c ≤ 'z') || ('A' ≤ c && c ≤ 'Z') || isDigit c || c = '_'

/-- ASCII whitespace, the regex class `\s` and the set stripped by `str.strip()`. -/
def isPySpace (c : Char) : Bool :=
  c = ' ' || c = '\t' || c = '\n' || c = '\x0d' || c = '\x0c' || c = '\x0b'

/-- Hexadecimal digit, the class `[0-9a-fA-F]`. -/
def isHex (c : Char) : Bool :=
  isDigit c || ('a' ≤ c && c ≤ 'f') || ('A' ≤ c && c ≤ 'F')

/-- The class `[0-9a-fA-F\-]` of the `<ID>` pattern. -/
def isIdChar (c : Char) : Bool := isHex c || c = '-'

/-- The class `[\w/.-]` of the Unix path pattern. -/
def isUnixPathChar (c : Char) : Bool := isWord c || c = '/' || c = '.' || c = '-'

/-- The class `[\w\\.-]` of the Windows path pattern. -/
def isWinPathChar (c : Char) : Bool := isWord c || c = '\\' || c = '.' || c = '-'

/-- The class `[+\-]` of the float pattern's sign. -/
def isSign (c : Char) : Bool := c = '+' || c = '-'

/-- The class `[\w:]` of the panic-header pattern. -/
def isWordColon (c : Char) : Bool := isWord c || c = ':'

/-- The class `[ \t]` of the whitespace-collapsing pattern. -/
def isSpaceTab (c : Char) : Bool := c = ' ' || c = '\t'

/-- The class `.` (any character but a newline). -/
def isDot (c : Char) : Bool := !(c = '\n')

/-- Patterns of the regex fragment used by `cluster.py`:
literal strings, counted character-class repetition `{lo,hi}` (greedy or
lazy), the word-boundary assertion `\b`, concatenation and alternation. -/
inductive Pat where
  | lit : List Char → Pat
  | cls : (Char → Bool) → Nat → Option Nat → Bool → Pat
  | wb : Pat
  | seq : Pat → Pat → Pat
  | alt : Pat → Pat → Pat

/-- Word-ness of an optional character; outside the string counts as non-word. -/
def isWordO : Option Char → Bool
  | none => false
  | some c => isWord c

/-- The `\b` assertion between a previous and a next character:
exactly one side is a word character. -/
def atBoundary (prev next : Option Char) : Bool :=
  isWordO prev != isWordO next

/-- Length of the maximal run of class characters at the front. -/
def takeRun (p : Char → Bool) : List Char → Nat
  | [] => 0
  | c :: cs => if p c then takeRun p cs + 1 else 0

/-- Last character consumed after taking `k` characters of `s`,
falling back to the previous character when `k = 0`. -/
def lastConsumed (prev : Option Char) (s : List Char) (k : Nat) : Option Char :=
  if k = 0 then prev else s[k - 1]?

/-- Repetition counts from `lo` to `top` in backtracking priority order:
greedy repetition tries the longest first, lazy the shortest first. -/
def repCounts (lo top : Nat) (lazy : Bool) : List Nat :=
  if lazy then List.range' lo (top + 1 - lo) else (List.range' lo (top + 1 - lo)).reverse

/-- All ways a pattern can match a prefix of `s`, as
(last consumed character, remaining suffix) pairs in the priority order
of Python's backtracking engine: the first element is the match Python
chooses.  `prev` is the character just before `s` in the full subject
string (`none` at the start), used by the `\b` assertion. -/
def matchEnds : Pat → Option Char → List Char → List (Option Char × List Char)
  | .lit cs, prev, s =>
      if cs.isPrefixOf s then
        [(if cs.isEmpty then prev else cs.getLast?, s.drop cs.length)]
      else []
  | .cls p lo hi lazy, prev, s =>
      let m := takeRun p s
      let top := match hi with
        | some h => min m h
        | none => m
      if top < lo then []
      else (repCounts lo top lazy).map (fun k => (lastConsumed prev s k, s.drop k))
  | .wb, prev, s => if atBoundary prev s.head? then [(prev, s)] else []
  | .seq a b, prev, s => (matchEnds a prev s).flatMap (fun pr => matchEnds b pr.1 pr.2)
  | .alt a b, prev, s => matchEnds a prev s ++ matchEnds b prev s

/-- Concatenation of a list of patterns. -/
def pseq (l : List Pat) : Pat := l.foldr Pat.seq (Pat.lit [])

/-- Optional pattern `a?` (greedy: presence is tried first). -/
def popt (a : Pat) : Pat := Pat.alt a (Pat.lit [])

/-- Worker of `pySub`: scan the subject left to right; at each position
take the pattern's first (highest-priority) match if any, emit the
replacement and continue after the match, otherwise copy one character.
`prev` is the original character before the current position, threaded
for the `\b` assertion (as in Python, matching always looks at the
original subject, never at replacement text).  Every pattern used in
this file consumes at least one character, so the guard against an
empty match never fires on them. -/
def subAux (pat : Pat) (repl : List Char) : Nat → Option Char → List Char → List Char
  | 0, _, s => s
  | fuel + 1, prev, s =>
    match s with
    | [] => []
    | c :: rest =>
      match (matchEnds pat prev (c :: rest)).head? with
      | some pr =>
          if pr.2.length < rest.length + 1 then
            repl ++ subAux pat repl fuel pr.1 pr.2
          else
            repl ++ c :: subAux pat repl fuel (some c) rest
      | none => c :: subAux pat repl fuel (some c) rest

/-- Model of `re.sub(pat, repl, s)` restricted to the fragment `Pat`.
The fuel bounds the number of scan steps; every step either copies or
consumes at least one character, so `s.length + 1` never runs out. -/
def pySub (pat : Pat) (repl : List Char) (s : List Char) : List Char :=
  subAux pat repl (s.length + 1) none s

/-- Model of Python `str.strip()`: remove leading and trailing whitespace. -/
def pyStrip (s : List Char) : List Char :=
  ((s.dropWhile isPySpace).reverse.dropWhile isPySpace).reverse

/-- Class repetition `{n}` over digits. -/
def dN (n : Nat) : Pat := Pat.cls isDigit n (some n) false

/-- Pattern `\d{4}-\d{2}-\d{2}T\d{2}:\d{2}:\d{2}Z?` (timestamps). -/
def RX_TIMESTAMP : Pat :=
  pseq [dN 4, Pat.lit ['-'], dN 2, Pat.lit ['-'], dN 2,
    Pat.lit ['T'], dN 2, Pat.lit [':'], dN 2,
    Pat.lit [':'], dN 2, popt (Pat.lit ['Z'])]

/-- Pattern `\d{4}-\d{2}-\d{2}` (bare dates). -/
def RX_DATE : Pat :=
  pseq [dN 4, Pat.lit ['-'], dN 2, Pat.lit ['-'], dN 2]

/-- Pattern `\d{2}:\d{2}:\d{2}` (bare times). -/
def RX_TIME : Pat :=
  pseq [dN 2, Pat.lit [':'], dN 2, Pat.lit [':'], dN 2]

/-- Pattern `/[\w/.-]+` (Unix file paths). -/
def RX_PATH_UNIX : Pat :=
  pseq [Pat.lit ['/'], Pat.cls isUnixPathChar 1 none false]

/-- Pattern `\\[\w\\.-]+` (Windows file paths). -/
def RX_PATH_WIN : Pat :=
  pseq [Pat.lit ['\\'], Pat.cls isWinPathChar 1 none false]

/-- Pattern `\b[0-9a-fA-F\-]{8,}\b` (IDs). -/
def RX_ID : Pat := pseq [Pat.wb, Pat.cls isIdChar 8 none false, Pat.wb]

/-- Pattern `\b[0-9a-fA-F]{8,}\b` (hex numbers, addresses). -/
def RX_HEX : Pat := pseq [Pat.wb, Pat.cls isHex 8 none false, Pat.wb]

/-- Pattern `\b\d+\b` (decimal numbers). -/
def RX_DEC : Pat := pseq [Pat.wb, Pat.cls isDigit 1 none false, Pat.wb]

/-- Pattern `\b[+\-]?\d+\.\d+([eE][+\-]?\d+)?\b` (floating point numbers). -/
def RX_FLOAT : Pat :=
  pseq [Pat.wb, Pat.cls isSign 0 (some 1) false, Pat.cls isDigit 1 none false,
    Pat.lit ['.'], Pat.cls isDigit 1 none false,
    popt (pseq [Pat.cls (fun c => c = 'e' || c = 'E') 1 (some 1) false,
      Pat.cls isSign 0 (some 1) false, Pat.cls isDigit 1 none false]),
    Pat.wb]

/-- Pattern `={3,}` (separators). -/
def RX_SEP_EQ : Pat := Pat.cls (fun c => c = '=') 3 none false

/-- Pattern `\*{3,}` (separators). -/
def RX_SEP_STAR : Pat := Pat.cls (fun c => c = '*') 3 none false

/-- Pattern `-{3,}` (separators). -/
def RX_SEP_DASH : Pat := Pat.cls (fun c => c = '-') 3 none false

/-- Pattern `[ \t]{2,}` (repeated spaces and tabs). -/
def RX_WS : Pat := Pat.cls isSpaceTab 2 none false

/-- The function `clean_line` of `cluster.py` on character lists: the
thirteen `re.sub` calls in source order, then `str.strip()`. -/
def clean_line_chars (line : List Char) : List Char :=
  let l := pySub RX_TIMESTAMP (("<TIMESTAMP>").data) line
  let l := pySub RX_DATE (("<DATE>").data) l
  let l := pySub RX_TIME (("<TIME>").data) l
  let l := pySub RX_PATH_UNIX (("<PATH>").data) l
  let l := pySub RX_PATH_WIN (("<PATH>").data) l
  let l := pySub RX_ID (("<ID>").data) l
  let l := pySub RX_HEX (("<HEX>").data) l
  let l := pySub RX_DEC (("<DEC>").data) l
  let l := pySub RX_FLOAT (("<FLOAT>").data) l
  let l := pySub RX_SEP_EQ (("<SEP>").data) l
  let l := pySub RX_SEP_STAR (("<SEP>").data) l
  let l := pySub RX_SEP_DASH (("<SEP>").data) l
  let l := pySub RX_WS ([' ']) l
  pyStrip l

/-- The function `clean_line` of `cluster.py`. -/
def clean_line (line : String) : String := String.mk (clean_line_chars line.data)

/-- The tuple `COMMON_LINES` of `cluster.py`: a line containing any of
these substrings is always dropped. -/
def COMMON_LINES : List String :=
  [("<SEP>"),
   ("Used datamodel:"),
   ("Some details are omitted"),
   ("Test failed due to an error"),
   ("stack backtrace:"),
   ("at <PATH>:<DEC>:<DEC>"),
   ("at .<PATH>:<DEC>:<DEC>"),
   ("request; method=\"initializeSchema\" params"),
   ("[<TIMESTAMP> INFO tokio_postgres::connection] NOTICE:")]

/-- Python's prefix test `s.startswith(pre)` (kernel-reducible
replacement for `String.startsWith`). -/
def py_startswith (s pre : String) : Bool := pre.data.isPrefixOf s.data

/-- Python's `s.split('\n')` on character lists: split at every newline,
keeping empty pieces. -/
def splitNlChars : List Char → List (List Char)
  | [] => [[]]
  | c :: cs =>
    if c = '\n' then [] :: splitNlChars cs
    else
      match splitNlChars cs with
      | [] => [[c]]
      | g :: gs => (c :: g) :: gs

/-- Python's `'\n'.join` on character lists. -/
def joinNl : List (List Char) → List Char
  | [] => []
  | g :: gs =>
    match gs with
    | [] => g
    | _ => g ++ '\n' :: joinNl gs

/-- Python's `s.split('\n')`. -/
def py_split_nl (s : String) : List String := (splitNlChars s.data).map String.mk

/-- Python's `'\n'.join(lines)`. -/
def py_join_nl (ls : List String) : String := String.mk (joinNl (ls.map String.data))

/-- Python's substring test `needle in hay`. -/
def containsSub (needle : List Char) : List Char → Bool
  | [] => needle.isEmpty
  | c :: rest => needle.isPrefixOf (c :: rest) || containsSub needle rest

/-- The check `any(common in line for common in COMMON_LINES)`. -/
def common_line (l : String) : Bool :=
  COMMON_LINES.any (fun c => containsSub c.data l.data)

/-- Python's `$` in `re.match`: it holds at the end of the subject or
just before a trailing newline, so a match ends at `$` exactly when the
unconsumed suffix is empty or a single newline. -/
def endsAtDollar (rest : List Char) : Bool := rest.isEmpty || rest = ['\n']

/-- The regex `RX_BLOCK_START` of `cluster.py` (re.VERBOSE, whitespace
in the pattern ignored):
`^(datasource\s+\w+\s*\{|generator\s+\w+\s*\{|model\s+\w+\s*\{)$`. -/
def RX_BLOCK_START : Pat :=
  Pat.alt
    (pseq [Pat.lit (("datasource").data), Pat.cls isPySpace 1 none false,
      Pat.cls isWord 1 none false, Pat.cls isPySpace 0 none false, Pat.lit ['\x7b']])
    (Pat.alt
      (pseq [Pat.lit (("generator").data), Pat.cls isPySpace 1 none false,
        Pat.cls isWord 1 none false, Pat.cls isPySpace 0 none false, Pat.lit ['\x7b']])
      (pseq [Pat.lit (("model").data), Pat.cls isPySpace 1 none false,
        Pat.cls isWord 1 none false, Pat.cls isPySpace 0 none false, Pat.lit ['\x7b']]))

/-- The test `RX_BLOCK_START.match(line)` as a Boolean:
`re.match` anchors at position 0 and the pattern ends with `$`. -/
def rx_block_start_match (l : String) : Bool :=
  (matchEnds RX_BLOCK_START none l.data).any (fun pr => endsAtDollar pr.2)

/-- The regex `RX_PANIC_START` of `cluster.py`:
`^(thread '[\w:]+' panicked at .*?<PATH>:<DEC>:<DEC>|<DEC>: rust_begin_unwind).*$`.
The `.*?` is lazy; the trailing `.*$` is kept for faithfulness. -/
def RX_PANIC_START : Pat :=
  pseq
    [Pat.alt
      (pseq [Pat.lit (("thread \x27").data), Pat.cls isWordColon 1 none false,
        Pat.lit (("\x27 panicked at ").data), Pat.cls isDot 0 none true,
        Pat.lit (("<PATH>:<DEC>:<DEC>").data)])
      (Pat.lit (("<DEC>: rust_begin_unwind").data)),
     Pat.cls isDot 0 none false]

/-- The test `RX_PANIC_START.match(line)` as a Boolean. -/
def rx_panic_start_match (l : String) : Bool :=
  (matchEnds RX_PANIC_START none l.data).any (fun pr => endsAtDollar pr.2)

/-- The enum `Mode` of `cluster.py`. -/
inductive Mode where
  | keep : Mode
  | star : Mode
  | panic : Mode
  | block : Mode
deriving DecidableEq, Repr

/-- The trigger checks at the bottom of the `clean_doc` loop body, run on
a cleaned line while in `keep` mode (also reached by falling through from
`star` and `panic`): returns the line to emit (if any) and the next mode. -/
def keep_step (l : String) : Option String × Mode :=
  if l = "* Test run information:" then (none, Mode.star)
  else if rx_panic_start_match l then (none, Mode.panic)
  else if rx_block_start_match l then (none, Mode.block)
  else (some l, Mode.keep)

/-- Handling of an already-cleaned line `l` under `keep` rules, in front
of the remaining lines `rest`: emit it unless it triggers a skip mode. -/
def keep_eval (cleanDocRest : Mode → List String) (l : String) : List String :=
  match keep_step l with
  | (some out, m) => out :: cleanDocRest m
  | (none, m) => cleanDocRest m

/-- The generator `clean_doc` of `cluster.py`, with the loop's mutable
`mode` made explicit.  Each line is first passed through `clean_line`;
empty lines and lines containing a `COMMON_LINES` substring are dropped
before the mode is consulted (so they do not leave a skip mode). -/
def clean_doc_aux : Mode → List String → List String
  | _, [] => []
  | mode, line :: rest =>
    let l := clean_line line
    if l = "" || common_line l then clean_doc_aux mode rest
    else
      match mode with
      | Mode.star =>
        if py_startswith l ("*") then clean_doc_aux Mode.star rest
        else keep_eval (fun m => clean_doc_aux m rest) l
      | Mode.panic =>
        if py_startswith l ("<DEC>: ") then clean_doc_aux Mode.panic rest
        else keep_eval (fun m => clean_doc_aux m rest) l
      | Mode.block =>
        if l = ("\x7d") then clean_doc_aux Mode.keep rest
        else clean_doc_aux Mode.block rest
      | Mode.keep => keep_eval (fun m => clean_doc_aux m rest) l

/-- The generator `clean_doc`, started in `keep` mode. -/
def clean_doc (lines : List String) : List String := clean_doc_aux Mode.keep lines

/-- The normalization applied to each failing test's output in
`read_test_results`: `cleaned_stdout = '\n'.join(clean_doc(stdout.split('\n')))`. -/
def cleaned_stdout (stdout : String) : String :=
  py_join_nl (clean_doc (py_split_nl stdout))

/-- The dataclass `TestResult` of `cluster.py`. -/
structure TestResult where
  name : String
  output : String
  clean_output : String
deriving DecidableEq, Repr

/-- One `defaultdict(list)` update `acc[k].append(x)`: append to the
entry with key `k`, keeping key insertion order, or create the entry at
the end when the key is new. -/
def dd_append {κ α : Type} [DecidableEq κ] :
    List (κ × List α) → κ → α → List (κ × List α)
  | [], k, x => [(k, [x])]
  | (k', xs) :: rest, k, x =>
      if k' = k then (k', xs ++ [x]) :: rest else (k', xs) :: dd_append rest k x

/-- The loop `for label, test in zip(labels, self.tests)` of
`cluster_test_results`: noisy samples (negative label) are skipped, the
others are appended to `self.clusters[label]`. -/
def organize_clusters (labels : List Int) (tests : List TestResult) :
    List (Int × List TestResult) :=
  (labels.zip tests).foldl
    (fun acc lt => if lt.1 < 0 then acc else dd_append acc lt.1 lt.2) []

/-- The method `cluster_test_results`, returning the pair
(`self.clusters`, `self.not_clustered`).  The vectorizer (`TfidfVectorizer`),
the reducer (`TSNE`) and the clusterer (`DBSCAN`) are external sklearn
calls; the label array they yield for the `len(tests) >= 3` path is the
parameter `labels` (DBSCAN's documented output is one label per sample,
`-1` for noisy samples).  When fewer than 3 tests are retained those
stages are skipped: each test goes to its own cluster `1 + i` and
`self.not_clustered` keeps its initial value `0`. -/
def cluster_test_results (tests : List TestResult) (labels : List Int) :
    List (Int × List TestResult) × Nat :=
  if tests.length < 3 then
    (tests.enum.foldl (fun acc it => dd_append acc ((it.1 : Int) + 1) it.2) [], 0)
  else
    (organize_clusters labels tests, (labels.filter (fun l => l = -1)).length)

/-- Total number of tests over all clusters. -/
def sum_cluster_sizes (clusters : List (Int × List TestResult)) : Nat :=
  (clusters.map (fun c => c.2.length)).sum

/-- Insertion into a size-descending list, placing the new element after
every element of greater-or-equal key: this is where an element sorts
under Python's stable `sorted(..., reverse=True)`. -/
def insert_desc {α : Type} (key : α → Nat) (x : α) : List α → List α
  | [] => [x]
  | y :: ys => if key y < key x then x :: y :: ys else y :: insert_desc key x ys

/-- Model of Python's `sorted(l, key=key, reverse=True)`: a stable sort,
descending on `key`.  Python's sort is stable, so any stable descending
sort computes the same list; this one inserts each element in turn after
all earlier elements of greater-or-equal key. -/
def py_sorted_desc {α : Type} (key : α → Nat) (l : List α) : List α :=
  l.foldl (fun acc x => insert_desc key x acc) []

/-- The sort in `write_markdown`:
`sorted(self.clusters.items(), key=lambda x: len(x[1]), reverse=True)`. -/
def sorted_clusters (clusters : List (Int × List TestResult)) :
    List (Int × List TestResult) :=
  py_sorted_desc (fun x => x.2.length) clusters

/-- The cluster headings printed by `write_markdown`:
`for cluster_no, (cluster_id, tests) in enumerate(sorted_clusters, 1)`
prints `# Cluster {cluster_no} ({len(tests)} tests)`; each heading is
modelled as the pair (printed cluster number, member count).  The raw
`cluster_id` is dropped by the rendering. -/
def markdown_headings (clusters : List (Int × List TestResult)) : List (Nat × Nat) :=
  (sorted_clusters clusters).enum.map (fun ic => (ic.1 + 1, ic.2.2.length))

/-- The per-cluster grouping in `write_markdown`:
`test_groups[test.clean_output].append(test)` over the cluster members. -/
def test_groups (tests : List TestResult) : List (String × List TestResult) :=
  tests.foldl (fun acc t => dd_append acc t.clean_output t) []

/-- `len(test_groups[d])`, the size of the member group of a normalized
output `d`. -/
def group_size (tests : List TestResult) (d : String) : Nat :=
  (((test_groups tests).lookup d).getD []).length

/-- The sort in `write_markdown`:
`sorted(test_groups, key=lambda d: len(test_groups[d]), reverse=True)` —
the dict's keys (in first-encounter order) sorted by group size,
descending, stable. -/
def sorted_docs (tests : List TestResult) : List String :=
  py_sorted_desc (group_size tests) ((test_groups tests).map Prod.fst)

/-- The representative outputs shown for one cluster:
`sorted_docs[:self.options.max_representative_outputs]`. -/
def representative_docs (tests : List TestResult) (k : Nat) : List String :=
  (sorted_docs tests).take k

/-- Index of the first test whose normalized output is `d` (the
first-encounter position of `d` in the cluster's member sequence). -/
def first_encounter (tests : List TestResult) (d : String) : Nat :=
  (tests.map (fun t => t.clean_output)).indexOf d

/-- The statistic `not_clustered_pct = 100.0 * not_clustered / test_count`
computed in `main`.  The division carries no guard in the source; the
`none` branch models the `ZeroDivisionError` raised when no failing
test was retained (`test_count = 0`). -/
def not_clustered_pct (not_clustered : Nat) (test_count : Nat) : Option ℚ :=
  if test_count = 0 then none
  else some (100 * (not_clustered : ℚ) / (test_count : ℚ))

/-- Whether any position of `s` carries a match of `pat`; `prev` is the
character before `s`.  Mirrors the positions scanned by `subAux`. -/
def hasMatchAux (pat : Pat) : Option Char → List Char → Bool
  | _, [] => false
  | prev, c :: rest =>
    !(matchEnds pat prev (c :: rest)).isEmpty || hasMatchAux pat (some c) rest

/-- Whether `re.search(pat, s)` would find a match. -/
def hasMatch (pat : Pat) (s : List Char) : Bool := hasMatchAux pat none s

/-- Patterns without the `\b` assertion: their matches do not look at
surrounding context. -/
def wbFree : Pat → Bool
  | .lit _ => true
  | .cls _ _ _ _ => true
  | .wb => false
  | .seq a b => wbFree a && wbFree b
  | .alt a b => wbFree a && wbFree b

/-- Minimal number of characters any match of the pattern consumes. -/
def minConsume : Pat → Nat
  | .lit cs => cs.length
  | .cls _ lo _ _ => lo
  | .wb => 0
  | .seq a b => minConsume a + minConsume b
  | .alt a b => min (minConsume a) (minConsume b)

/-- Every character a match of the pattern can consume satisfies `A`. -/
def patChars (A : Char → Bool) : Pat → Prop
  | .lit cs => ∀ c ∈ cs, A c = true
  | .cls p _ _ _ => ∀ c, p c = true → A c = true
  | .wb => True
  | .seq a b => patChars A a ∧ patChars A b
  | .alt a b => patChars A a ∧ patChars A b

/-- The words (consumed-character sequences) a `\b`-free pattern can
match, independent of context. -/
inductive Parses : Pat → List Char → Prop where
  | lit (cs : List Char) : Parses (.lit cs) cs
  | cls (p : Char → Bool) (lo : Nat) (hi : Option Nat) (lazy : Bool) (u : List Char)
      (hlen : lo ≤ u.length) (hhi : ∀ h ∈ hi, u.length ≤ h)
      (hall : ∀ c ∈ u, p c = true) : Parses (.cls p lo hi lazy) u
  | seq (a b : Pat) (u v : List Char) :
      Parses a u → Parses b v → Parses (.seq a b) (u ++ v)
  | altl (a b : Pat) (u : List Char) : Parses a u → Parses (.alt a b) u
  | altr (a b : Pat) (u : List Char) : Parses b u → Parses (.alt a b) u

/-- A match of the pattern starts at the first position of `s`. -/
def MatchesAt (pat : Pat) (s : List Char) : Prop :=
  ∃ u v, s = u ++ v ∧ Parses pat u

/-- No suffix of `s` starts a match of the pattern (context-free
no-match predicate, adequate for `\b`-free patterns). -/
def NoMatchAll (pat : Pat) (s : List Char) : Prop :=
  ∀ t, t <:+ s → ¬ MatchesAt pat t

/-- A replacement string never continues or starts a run of `A`
characters: its first and last characters are outside `A` and no two
adjacent characters are both in `A`. -/
def breaksRuns (A : Char → Bool) : List Char → Bool
  | [] => true
  | [c] => !(A c)
  | c :: d :: rest => (!(A c) || !(A d)) && breaksRuns A (d :: rest)

/-- The shape shared by the `<ID>`, `<HEX>` and `<DEC>` patterns:
a word boundary, a counted class repetition, a word boundary. -/
def bPat (C : Char → Bool) (lo : Nat) : Pat :=
  pseq [Pat.wb, Pat.cls C lo none false, Pat.wb]

/-- Existence of a match of `bPat C lo` at the start of `s` after `prev`:
a boundary before the first character, at least `lo` class characters,
and a boundary after some admissible count `k`. -/
def BMatchAt (C : Char → Bool) (lo : Nat) (prev : Option Char) (s : List Char) : Prop :=
  atBoundary prev s.head? = true
  ∧ ∃ k, lo ≤ k ∧ k ≤ takeRun C s
      ∧ atBoundary s[k - 1]? s[k]? = true

/-- The relation maintained by the stable descending sort: keys are
non-increasing, and elements with equal keys additionally stand in the
input-order relation `R`. -/
def descStable {α : Type} (key : α → Nat) (R : α → α → Prop) (a b : α) : Prop :=
  key b ≤ key a ∧ (key a = key b → R a b)

/-- Last character of `prev ++ a` as an option: the character just before
the position that follows `a`, when scanning started with previous
character `prev`. -/
def prevAt (prev : Option Char) : List Char → Option Char
  | [] => prev
  | c :: cs => prevAt (some c) cs

/-- Positional no-match predicate for the `\b`-delimited patterns: no
position of `s` (with its actual preceding character) starts a
`bPat C lo` match. -/
def NoBPos (C : Char → Bool) (lo : Nat) (prev : Option Char) (s : List Char) : Prop :=
  ∀ a t, s = a ++ t → ¬ BMatchAt C lo (prevAt prev a) t

/-- The scan relation implemented by `subAux`: at each position either no
match starts and one character is copied, or the first match is taken,
the replacement emitted and scanning resumes after the match.  `prev` is
always the character of the original subject just before the current
position. -/
inductive SubRel (q : Pat) (r : List Char) : Option Char → List Char → List Char → Prop where
  | nil (prev : Option Char) : SubRel q r prev [] []
  | copy (prev : Option Char) (c : Char) (s o : List Char) :
      matchEnds q prev (c :: s) = [] → SubRel q r (some c) s o →
      SubRel q r prev (c :: s) (c :: o)
  | repl (prev : Option Char) (s o : List Char) (pr : Option Char × List Char) :
      (matchEnds q prev s).head? = some pr → pr.2.length < s.length →
      SubRel q r pr.1 pr.2 o → SubRel q r prev s (r ++ o)

/-- No two adjacent characters of the list satisfy `B`, where the Boolean
argument records whether the character just before the list satisfies
`B`.  Used for the whitespace-collapsing stage. -/
def noTwo (B : Char → Bool) : Bool → List Char → Bool
  | _, [] => true
  | b, c :: t => (!(b && B c)) && noTwo B (B c) t

/-! ### Lemmas about the defaultdict model -/

theorem dd_append_total {κ α : Type} [DecidableEq κ]
    (acc : List (κ × List α)) (k : κ) (x : α) :
    ((dd_append acc k x).map (fun c => c.2.length)).sum
      = ((acc.map (fun c => c.2.length)).sum) + 1 := by
  induction acc with
  | nil => simp [dd_append]
  | cons y ys ih =>
    obtain ⟨k', xs⟩ := y
    by_cases h : k' = k
    · simp [dd_append, h]
      omega
    · simp [dd_append, h]
      omega

theorem dd_append_fresh {κ α : Type} [DecidableEq κ]
    (acc : List (κ × List α)) (k : κ) (x : α) (h : ∀ p ∈ acc, p.1 ≠ k) :
    dd_append acc k x = acc ++ [(k, [x])] := by
  induction acc with
  | nil => simp [dd_append]
  | cons y ys ih =>
    obtain ⟨k', xs⟩ := y
    have hk : k' ≠ k := h (k', xs) (by simp)
    simp [dd_append, hk]
    exact ih (fun p hp => h p (by simp [hp]))

/-- The singleton-cluster fold of the `len(tests) < 3` branch, over the
enumeration starting at index `i`, appends one fresh singleton cluster
per test. -/
theorem singletons_fold (tests : List TestResult) :
    ∀ (i : Nat) (acc : List (Int × List TestResult)),
      (∀ p ∈ acc, p.1 < (i : Int) + 1) →
      (List.enumFrom i tests).foldl
          (fun acc it => dd_append acc ((it.1 : Int) + 1) it.2) acc
        = acc ++ (List.enumFrom i tests).map (fun it => ((it.1 : Int) + 1, [it.2])) := by
  induction tests with
  | nil => intro i acc _; simp [List.enumFrom]
  | cons t ts ih =>
    intro i acc hacc
    have hfresh : ∀ p ∈ acc, p.1 ≠ (i : Int) + 1 := by
      intro p hp
      have := hacc p hp
      omega
    simp only [List.enumFrom, List.foldl_cons, List.map_cons]
    rw [dd_append_fresh acc _ t hfresh]
    rw [ih (i + 1) (acc ++ [((i : Int) + 1, [t])]) ?_]
    · simp
    · intro p hp
      rcases List.mem_append.mp hp with h | h
      · have := hacc p h
        push_cast
        omega
      · simp at h
        simp [h]

/-- The zip fold of `cluster_test_results` grows the total cluster size
by one per non-negative label. -/
theorem organize_total (pairs : List (Int × TestResult)) :
    ∀ acc : List (Int × List TestResult),
      (((pairs.foldl
          (fun acc lt => if lt.1 < 0 then acc else dd_append acc lt.1 lt.2) acc)).map
            (fun c => c.2.length)).sum
        = ((acc.map (fun c => c.2.length)).sum)
          + (pairs.filter (fun lt => decide (0 ≤ lt.1))).length := by
  induction pairs with
  | nil => intro acc; simp
  | cons p ps ih =>
    intro acc
    by_cases h : p.1 < 0
    · have : ¬ (0 : Int) ≤ p.1 := by omega
      simp [h, ih, this]
    · have : (0 : Int) ≤ p.1 := by omega
      simp [h, ih, dd_append_total, this]
      omega

theorem sum_map_one {α : Type} (l : List α) : (l.map (fun _ => (1 : Nat))).sum = l.length := by
  induction l with
  | nil => simp
  | cons a l ih => simp [ih]; omega

/-- Counting: under the DBSCAN label contract (every label is `-1` or
non-negative), the non-negative labels and the `-1` labels partition the
label list. -/
theorem label_partition (labels : List Int) (tests : List TestResult)
    (hlen : labels.length = tests.length)
    (hlab : ∀ l ∈ labels, l = -1 ∨ 0 ≤ l) :
    ((labels.zip tests).filter (fun lt => decide (0 ≤ lt.1))).length
      + (labels.filter (fun l => decide (l = -1))).length = labels.length := by
  induction labels generalizing tests with
  | nil => simp
  | cons l ls ih =>
    cases tests with
    | nil => simp at hlen
    | cons t ts =>
      have hlen' : ls.length = ts.length := by simpa using hlen
      have hl := hlab l (by simp)
      have hrest : ∀ x ∈ ls, x = -1 ∨ 0 ≤ x := fun x hx => hlab x (by simp [hx])
      have ihh := ih ts hlen' hrest
      rcases hl with h | h
      · have h1 : ¬ (0 : Int) ≤ l := by omega
        simp [List.zip_cons_cons, List.filter_cons, h, h1]
        omega
      · have h2 : l ≠ -1 := by omega
        simp [List.zip_cons_cons, List.filter_cons, h, h2]
        omega

/-- Claim C1: for every run, each retained `TestResult` lands in exactly one
of (exactly one cluster, the noise set): the sum of the emitted cluster
sizes plus the noise count equals the number of retained tests.  The
labels are DBSCAN's output for the `N ≥ 3` path, constrained by its
documented contract: one label per sample, `-1` for noise, otherwise a
non-negative cluster label; the `N < 3` path ignores them. -/
theorem cluster_partition_stable (tests : List TestResult) (labels : List Int)
    (hlen : labels.length = tests.length)
    (hlab : ∀ l ∈ labels, l = -1 ∨ 0 ≤ l) :
    sum_cluster_sizes (cluster_test_results tests labels).1
      + (cluster_test_results tests labels).2 = tests.length := by
  unfold cluster_test_results
  by_cases h : tests.length < 3
  · rw [if_pos h]
    simp only [sum_cluster_sizes]
    have henum : tests.enum = List.enumFrom 0 tests := rfl
    rw [henum, singletons_fold tests 0 [] (by simp)]
    simp [List.map_map, Function.comp_def, sum_map_one]
  · rw [if_neg h]
    simp only [sum_cluster_sizes, organize_clusters]
    rw [organize_total]
    simpa [hlen] using label_partition labels tests hlen hlab

/-- Witness for C1 at a concrete run: four tests, labels `[0, -1, 0, 1]`. -/
theorem cluster_partition_stable_witness :
    (([0, -1, 0, 1] : List Int).length
        = ([⟨"a", "oa", "ca"⟩, ⟨"b", "ob", "cb"⟩, ⟨"c", "oc", "cc"⟩,
            ⟨"d", "od", "cd"⟩] : List TestResult).length
      ∧ (∀ l ∈ ([0, -1, 0, 1] : List Int), l = -1 ∨ 0 ≤ l))
    ∧ sum_cluster_sizes
          (cluster_test_results
            [⟨"a", "oa", "ca"⟩, ⟨"b", "ob", "cb"⟩, ⟨"c", "oc", "cc"⟩, ⟨"d", "od", "cd"⟩]
            [0, -1, 0, 1]).1
        + (cluster_test_results
            [⟨"a", "oa", "ca"⟩, ⟨"b", "ob", "cb"⟩, ⟨"c", "oc", "cc"⟩, ⟨"d", "od", "cd"⟩]
            [0, -1, 0, 1]).2
      = ([⟨"a", "oa", "ca"⟩, ⟨"b", "ob", "cb"⟩, ⟨"c", "oc", "cc"⟩,
          ⟨"d", "od", "cd"⟩] : List TestResult).length :=
  ⟨⟨by decide, by decide⟩,
    cluster_partition_stable _ _ (by decide) (by decide)⟩

/-- Claim C8: with fewer than three retained tests the numeric stages are
skipped (the result does not depend on any label array), every test is
the sole member of its own cluster `1 + i`, and the noise count is 0. -/
theorem small_input_singletons (tests : List TestResult) (labels labels' : List Int)
    (h : tests.length < 3) :
    (cluster_test_results tests labels).1
        = tests.enum.map (fun it => ((it.1 : Int) + 1, [it.2]))
      ∧ (∀ p ∈ (cluster_test_results tests labels).1, p.2.length = 1)
      ∧ (cluster_test_results tests labels).2 = 0
      ∧ cluster_test_results tests labels = cluster_test_results tests labels' := by
  have hcl : (cluster_test_results tests labels).1
      = tests.enum.map (fun it => ((it.1 : Int) + 1, [it.2])) := by
    unfold cluster_test_results
    rw [if_pos h]
    have henum : tests.enum = List.enumFrom 0 tests := rfl
    simpa [henum] using singletons_fold tests 0 [] (by simp)
  refine ⟨hcl, ?_, ?_, ?_⟩
  · intro p hp
    rw [hcl] at hp
    obtain ⟨it, _, hit⟩ := List.mem_map.mp hp
    rw [← hit]
    simp
  · unfold cluster_test_results
    rw [if_pos h]
  · unfold cluster_test_results
    rw [if_pos h, if_pos h]

/-- Witness for C8 at a concrete run of exactly two failing tests. -/
theorem small_input_singletons_witness :
    (([⟨"a", "oa", "ca"⟩, ⟨"b", "ob", "cb"⟩] : List TestResult).length < 3)
    ∧ ((cluster_test_results [⟨"a", "oa", "ca"⟩, ⟨"b", "ob", "cb"⟩] [5]).1
        = ([⟨"a", "oa", "ca"⟩, ⟨"b", "ob", "cb"⟩] : List TestResult).enum.map
            (fun it => ((it.1 : Int) + 1, [it.2]))
      ∧ (∀ p ∈ (cluster_test_results [⟨"a", "oa", "ca"⟩, ⟨"b", "ob", "cb"⟩] [5]).1,
          p.2.length = 1)
      ∧ (cluster_test_results [⟨"a", "oa", "ca"⟩, ⟨"b", "ob", "cb"⟩] [5]).2 = 0
      ∧ cluster_test_results [⟨"a", "oa", "ca"⟩, ⟨"b", "ob", "cb"⟩] [5]
          = cluster_test_results [⟨"a", "oa", "ca"⟩, ⟨"b", "ob", "cb"⟩] []) :=
  ⟨by decide, small_input_singletons _ [5] [] (by decide)⟩

/-- Claim C10: the summary statistic `100.0 * not_clustered / test_count` in
`main` has no guard: it is well-defined exactly when at least one failing
test was retained, and the division's error branch (`none`, modelling
Python's `ZeroDivisionError`) is reached when no test was retained. -/
theorem summary_pct_guard (tests : List TestResult) (noise : Nat) :
    (tests.length = 0 → not_clustered_pct noise tests.length = none)
    ∧ (tests.length ≠ 0 → ∃ q : ℚ, not_clustered_pct noise tests.length = some q) := by
  constructor
  · intro h
    simp [not_clustered_pct, h]
  · intro h
    refine ⟨100 * (noise : ℚ) / (tests.length : ℚ), ?_⟩
    simp [not_clustered_pct, h]

/-! ### Lemmas about the stable descending sort -/

theorem insert_desc_mem {α : Type} (key : α → Nat) (x : α) (l : List α) (z : α) :
    z ∈ insert_desc key x l ↔ z = x ∨ z ∈ l := by
  induction l with
  | nil => simp [insert_desc]
  | cons y ys ih =>
    by_cases h : key y < key x
    · simp [insert_desc, h]
    · simp only [insert_desc, if_neg h, List.mem_cons, ih]
      tauto

theorem insert_desc_perm {α : Type} (key : α → Nat) (x : α) (l : List α) :
    (insert_desc key x l).Perm (x :: l) := by
  induction l with
  | nil => simp [insert_desc]
  | cons y ys ih =>
    by_cases h : key y < key x
    · simp [insert_desc, h]
    · simp only [insert_desc, if_neg h]
      exact (ih.cons y).trans (List.Perm.swap x y ys)

theorem foldl_insert_perm {α : Type} (key : α → Nat) :
    ∀ (l acc : List α),
      (l.foldl (fun acc x => insert_desc key x acc) acc).Perm (acc ++ l) := by
  intro l
  induction l with
  | nil => intro acc; simp
  | cons x xs ih =>
    intro acc
    simp only [List.foldl_cons]
    exact (ih (insert_desc key x acc)).trans
      (((insert_desc_perm key x acc).append_right xs).trans List.perm_middle.symm)

theorem py_sorted_desc_perm {α : Type} (key : α → Nat) (l : List α) :
    (py_sorted_desc key l).Perm l := by
  simpa [py_sorted_desc] using foldl_insert_perm key l []

theorem insert_desc_pairwise {α : Type} (key : α → Nat) (R : α → α → Prop) (x : α)
    (l : List α) (hl : l.Pairwise (descStable key R))
    (hx : ∀ y ∈ l, key y = key x → R y x) :
    (insert_desc key x l).Pairwise (descStable key R) := by
  induction l with
  | nil => simp [insert_desc]
  | cons y ys ih =>
    rw [List.pairwise_cons] at hl
    obtain ⟨hy, hys⟩ := hl
    by_cases h : key y < key x
    · rw [insert_desc, if_pos h, List.pairwise_cons]
      refine ⟨?_, List.pairwise_cons.mpr ⟨hy, hys⟩⟩
      intro z hz
      rcases List.mem_cons.mp hz with rfl | hz'
      · exact ⟨Nat.le_of_lt h, fun he => absurd he (by omega)⟩
      · have := (hy z hz').1
        exact ⟨by omega, fun he => absurd he (by omega)⟩
    · rw [insert_desc, if_neg h, List.pairwise_cons]
      constructor
      · intro z hz
        rcases (insert_desc_mem key x ys z).mp hz with rfl | hz'
        · exact ⟨Nat.le_of_not_lt h, fun he => hx y (by simp) he⟩
        · exact hy z hz'
      · exact ih hys (fun z hz he => hx z (by simp [hz]) he)

theorem foldl_insert_pairwise {α : Type} (key : α → Nat) (R : α → α → Prop) :
    ∀ (l acc : List α),
      acc.Pairwise (descStable key R) →
      (∀ y ∈ acc, ∀ x ∈ l, key y = key x → R y x) →
      l.Pairwise (fun a b => key a = key b → R a b) →
      (l.foldl (fun acc x => insert_desc key x acc) acc).Pairwise (descStable key R) := by
  intro l
  induction l with
  | nil => intro acc hacc _ _; simpa using hacc
  | cons x xs ih =>
    intro acc hacc hcross hl
    rw [List.pairwise_cons] at hl
    obtain ⟨hx, hxs⟩ := hl
    simp only [List.foldl_cons]
    apply ih (insert_desc key x acc)
    · exact insert_desc_pairwise key R x acc hacc
        (fun y hy he => hcross y hy x (by simp) he)
    · intro y hy z hz he
      rcases (insert_desc_mem key x acc y).mp hy with rfl | hy'
      · exact hx z hz he
      · exact hcross y hy' z (by simp [hz]) he
    · exact hxs

theorem py_sorted_desc_pairwise {α : Type} (key : α → Nat) (R : α → α → Prop)
    (l : List α) (hl : l.Pairwise (fun a b => key a = key b → R a b)) :
    (py_sorted_desc key l).Pairwise (descStable key R) :=
  foldl_insert_pairwise key R l [] (by simp) (by simp) hl

theorem py_sorted_desc_sorted {α : Type} (key : α → Nat) (l : List α) :
    (py_sorted_desc key l).Pairwise (fun a b => key b ≤ key a) := by
  have htriv : l.Pairwise (fun a b => key a = key b → True) := by
    induction l with
    | nil => simp
    | cons x xs ih => exact List.pairwise_cons.mpr ⟨fun b _ _ => trivial, ih⟩
  exact (py_sorted_desc_pairwise key (fun _ _ => True) l htriv).imp (fun hp => hp.1)

/-- Claim C2: in the rendered report the clusters appear with non-increasing
member counts, and the id printed in each heading is the rank position
1, 2, 3, … of the size-sorted order — independent of the algorithm's raw
cluster labels, which `write_markdown` drops. -/
theorem report_rank_order (clusters : List (Int × List TestResult)) :
    ((markdown_headings clusters).map Prod.snd).Pairwise (fun a b => b ≤ a)
    ∧ (markdown_headings clusters).map Prod.fst = List.range' 1 clusters.length := by
  constructor
  · have h1 : (markdown_headings clusters).map Prod.snd
        = (sorted_clusters clusters).map (fun c => c.2.length) := by
      simp only [markdown_headings, List.map_map]
      rw [show (Prod.snd ∘ fun ic : Nat × (Int × List TestResult) => (ic.1 + 1, ic.2.2.length))
          = ((fun c : Int × List TestResult => c.2.length) ∘ Prod.snd) from rfl]
      rw [← List.map_map, List.enum_map_snd]
    rw [h1, List.pairwise_map]
    exact py_sorted_desc_sorted (fun c => c.2.length) clusters
  · have hlen : (sorted_clusters clusters).length = clusters.length := by
      unfold sorted_clusters
      exact (py_sorted_desc_perm _ clusters).length_eq
    have h2 : (markdown_headings clusters).map Prod.fst
        = List.map (fun i => i + 1) (List.range (sorted_clusters clusters).length) := by
      simp only [markdown_headings, List.map_map]
      rw [show (Prod.fst ∘ fun ic : Nat × (Int × List TestResult) => (ic.1 + 1, ic.2.2.length))
          = ((fun i => i + 1) ∘ Prod.fst) from rfl]
      rw [← List.map_map, List.enum_map_fst]
    rw [h2, hlen, List.range'_eq_map_range]
    exact List.map_congr_left (fun i _ => Nat.add_comm i 1)

/-! ### Structure of the per-cluster groups (for the representatives) -/

theorem dd_append_keys_mem {κ α : Type} [DecidableEq κ]
    (acc : List (κ × List α)) (k : κ) (x : α) (h : k ∈ acc.map Prod.fst) :
    (dd_append acc k x).map Prod.fst = acc.map Prod.fst := by
  induction acc with
  | nil => simp at h
  | cons y ys ih =>
    obtain ⟨k', xs⟩ := y
    by_cases hk : k' = k
    · simp [dd_append, hk]
    · have h' : k ∈ ys.map Prod.fst := by
        simp only [List.map_cons, List.mem_cons] at h
        rcases h with h1 | h1
        · exact absurd h1.symm hk
        · exact h1
      simp [dd_append, hk, ih h']

theorem dd_append_mem_cases {κ α : Type} [DecidableEq κ]
    (acc : List (κ × List α)) (k : κ) (x : α)
    (hnd : (acc.map Prod.fst).Nodup) :
    ∀ q ∈ dd_append acc k x,
      (q.1 ≠ k ∧ q ∈ acc)
      ∨ (q.1 = k
          ∧ ((k ∉ acc.map Prod.fst ∧ q = (k, [x]))
              ∨ (∃ xs, (k, xs) ∈ acc ∧ q = (k, xs ++ [x])))) := by
  induction acc with
  | nil =>
    intro q hq
    simp [dd_append] at hq
    right
    simp [hq]
  | cons y ys ih =>
    obtain ⟨k', xs⟩ := y
    rw [List.map_cons, List.nodup_cons] at hnd
    obtain ⟨hk', hnd'⟩ := hnd
    intro q hq
    by_cases hk : k' = k
    · subst hk
      rw [dd_append, if_pos rfl] at hq
      rcases List.mem_cons.mp hq with rfl | hq'
      · right
        exact ⟨rfl, Or.inr ⟨xs, by simp⟩⟩
      · left
        refine ⟨?_, List.mem_cons_of_mem _ hq'⟩
        intro hqk
        exact hk' (by simpa [← hqk] using List.mem_map_of_mem Prod.fst hq')
    · rw [dd_append, if_neg hk] at hq
      rcases List.mem_cons.mp hq with rfl | hq'
      · exact Or.inl ⟨by simpa using hk, by simp⟩
      · rcases ih hnd' q hq' with ⟨h1, h2⟩ | ⟨h1, h2⟩
        · exact Or.inl ⟨h1, List.mem_cons_of_mem _ h2⟩
        · refine Or.inr ⟨h1, ?_⟩
          rcases h2 with ⟨hnot, hq2⟩ | ⟨zs, hz1, hz2⟩
          · refine Or.inl ⟨?_, hq2⟩
            simp only [List.map_cons, List.mem_cons]
            push_neg
            exact ⟨fun hc => hk hc.symm, hnot⟩
          · exact Or.inr ⟨zs, List.mem_cons_of_mem _ hz1, hz2⟩

/-- Combined structural invariant of `test_groups`: the keys are exactly
the distinct normalized outputs without duplicates, each group is the
subsequence of tests with that output, and the keys stand in
first-encounter order. -/
theorem test_groups_spec (tests : List TestResult) :
    ((test_groups tests).map Prod.fst).Nodup
    ∧ (∀ d, d ∈ (test_groups tests).map Prod.fst
        ↔ d ∈ tests.map (fun t => t.clean_output))
    ∧ (∀ p ∈ test_groups tests, p.2 = tests.filter (fun t => t.clean_output = p.1))
    ∧ ((test_groups tests).map Prod.fst).Pairwise
        (fun d e => first_encounter tests d < first_encounter tests e) := by
  induction tests using List.reverseRecOn with
  | nil => simp [test_groups]
  | append_singleton ts t ih =>
    obtain ⟨hnd, hkeys, hmem, hpw⟩ := ih
    have hstep : test_groups (ts ++ [t]) = dd_append (test_groups ts) t.clean_output t := by
      simp [test_groups, List.foldl_append]
    by_cases hin : t.clean_output ∈ (test_groups ts).map Prod.fst
    · -- existing key: keys unchanged
      have hkeq : (test_groups (ts ++ [t])).map Prod.fst = (test_groups ts).map Prod.fst := by
        rw [hstep]
        exact dd_append_keys_mem _ _ _ hin
      refine ⟨by rw [hkeq]; exact hnd, ?_, ?_, ?_⟩
      · intro d
        rw [hkeq, List.map_append]
        constructor
        · intro hd
          exact List.mem_append_left _ ((hkeys d).mp hd)
        · intro hd
          rcases List.mem_append.mp hd with hd' | hd'
          · exact (hkeys d).mpr hd'
          · simp at hd'
            rw [hd']
            exact hin
      · intro p hp
        rw [hstep] at hp
        rcases dd_append_mem_cases _ _ _ hnd p hp with ⟨h1, h2⟩ | ⟨h1, h2⟩
        · rw [List.filter_append, hmem p h2]
          have : (fun tt : TestResult => decide (tt.clean_output = p.1)) t = false := by
            simp
            intro hc
            exact h1 (hc ▸ rfl)
          simp [List.filter_cons, this]
        · rcases h2 with ⟨hnot, _⟩ | ⟨zs, hz1, hz2⟩
          · exact absurd hin hnot
          · have hz3 := hmem (t.clean_output, zs) hz1
            simp only at hz3
            rw [hz2, List.filter_append]
            simp only [h1]
            have : (fun tt : TestResult => decide (tt.clean_output = t.clean_output)) t
                = true := by simp
            simp [List.filter_cons, this, hz3, h1]
      · rw [hkeq]
        refine hpw.imp_of_mem ?_
        intro d e hd he hde
        have hd' : d ∈ ts.map (fun tt => tt.clean_output) := (hkeys d).mp hd
        have he' : e ∈ ts.map (fun tt => tt.clean_output) := (hkeys e).mp he
        unfold first_encounter at hde ⊢
        rw [List.map_append, List.indexOf_append_of_mem hd',
          List.indexOf_append_of_mem he']
        exact hde
    · -- new key: appended at the end
      have hfresh : ∀ p ∈ test_groups ts, p.1 ≠ t.clean_output := by
        intro p hp hpk
        exact hin (hpk ▸ List.mem_map_of_mem Prod.fst hp)
      have hkeq : test_groups (ts ++ [t]) = test_groups ts ++ [(t.clean_output, [t])] := by
        rw [hstep]
        exact dd_append_fresh _ _ _ hfresh
      have houts : t.clean_output ∉ ts.map (fun tt => tt.clean_output) :=
        fun hc => hin ((hkeys _).mpr hc)
      refine ⟨?_, ?_, ?_, ?_⟩
      · rw [hkeq, List.map_append]
        rw [List.nodup_append]
        refine ⟨hnd, by simp, ?_⟩
        intro d hd
        simp only [List.map_cons, List.map_nil, List.mem_singleton]
        intro hde
        exact hin (hde ▸ hd)
      · intro d
        rw [hkeq, List.map_append, List.map_append]
        simp only [List.mem_append, List.map_cons, List.map_nil]
        constructor
        · intro hd
          rcases hd with hd' | hd'
          · exact Or.inl ((hkeys d).mp hd')
          · exact Or.inr hd'
        · intro hd
          rcases hd with hd' | hd'
          · exact Or.inl ((hkeys d).mpr hd')
          · exact Or.inr hd'
      · intro p hp
        rw [hkeq] at hp
        rcases List.mem_append.mp hp with hp' | hp'
        · have hne : p.1 ≠ t.clean_output := hfresh p hp'
          rw [List.filter_append, hmem p hp']
          have hft : (fun tt : TestResult => decide (tt.clean_output = p.1)) t = false := by
            simp
            intro hc
            exact hne (hc ▸ rfl)
          simp [List.filter_cons, hft]
        · simp only [List.mem_singleton] at hp'
          rw [hp', List.filter_append]
          have hnil : ts.filter (fun tt => decide (tt.clean_output = t.clean_output)) = [] := by
            rw [List.filter_eq_nil]
            intro a ha
            simp
            intro hc
            exact houts (hc ▸ List.mem_map_of_mem (fun tt => tt.clean_output) ha)
          simp [List.filter_cons, hnil]
      · rw [hkeq, List.map_append]
        rw [List.pairwise_append]
        refine ⟨?_, by simp, ?_⟩
        · refine hpw.imp_of_mem ?_
          intro d e hd he hde
          have hd' : d ∈ ts.map (fun tt => tt.clean_output) := (hkeys d).mp hd
          have he' : e ∈ ts.map (fun tt => tt.clean_output) := (hkeys e).mp he
          unfold first_encounter at hde ⊢
          rw [List.map_append, List.indexOf_append_of_mem hd',
            List.indexOf_append_of_mem he']
          exact hde
        · intro d hd e he
          simp only [List.map_cons, List.map_nil, List.mem_singleton] at he
          subst he
          have hd' : d ∈ ts.map (fun tt => tt.clean_output) := (hkeys d).mp hd
          unfold first_encounter
          rw [List.map_append, List.indexOf_append_of_mem hd',
            List.indexOf_append_of_not_mem houts]
          have hlt : List.indexOf d (ts.map fun tt => tt.clean_output)
              < (ts.map fun tt => tt.clean_output).length :=
            List.indexOf_lt_length.mpr hd'
          omega
theorem summary_pct_guard_witness :
    (([] : List TestResult).length = 0
      ∧ not_clustered_pct 0 ([] : List TestResult).length = none)
    ∧ (([⟨"a", "oa", "ca"⟩] : List TestResult).length ≠ 0
      ∧ ∃ q : ℚ, not_clustered_pct 1 ([⟨"a", "oa", "ca"⟩] : List TestResult).length
          = some q) :=
  ⟨⟨rfl, (summary_pct_guard [] 0).1 rfl⟩,
    ⟨by decide, (summary_pct_guard [⟨"a", "oa", "ca"⟩] 1).2 (by decide)⟩⟩

/-- Lookup in an association list with duplicate-free keys finds the
unique entry. -/
theorem assoc_lookup {κ β : Type} [DecidableEq κ]
    (l : List (κ × β)) (k : κ) (v : β)
    (hnd : (l.map Prod.fst).Nodup) (h : (k, v) ∈ l) : l.lookup k = some v := by
  induction l with
  | nil => simp at h
  | cons p ps ih =>
    obtain ⟨k', v'⟩ := p
    rw [List.map_cons, List.nodup_cons] at hnd
    rcases List.mem_cons.mp h with heq | hmem
    · injection heq with hk hv
      subst hk
      subst hv
      simp [List.lookup]
    · have hne : k ≠ k' := by
        intro hc
        subst hc
        exact hnd.1 (by simpa using List.mem_map_of_mem Prod.fst hmem)
      have hb : (k == k') = false := by simpa using hne
      simp only [List.lookup, hb]
      exact ih hnd.2 hmem

/-- Claim C9: the representative outputs of a cluster are the first `k`
entries of the stable size-descending sort of the member groups of
identical normalized output: a permutation of the group keys, with
non-increasing group size, ties ordered by the first-encounter position
of the normalized output in the member sequence, where each group is
exactly the subsequence of members with that output. -/
theorem representative_selection (tests : List TestResult) (k : Nat) :
    representative_docs tests k = (sorted_docs tests).take k
    ∧ (sorted_docs tests).Perm ((test_groups tests).map Prod.fst)
    ∧ (sorted_docs tests).Pairwise
        (fun d e => group_size tests e ≤ group_size tests d
          ∧ (group_size tests d = group_size tests e
              → first_encounter tests d < first_encounter tests e))
    ∧ (∀ p ∈ test_groups tests, p.2 = tests.filter (fun t => t.clean_output = p.1))
    ∧ (∀ p ∈ test_groups tests, group_size tests p.1 = p.2.length) := by
  obtain ⟨hnd, _, hmem, hpw⟩ := test_groups_spec tests
  refine ⟨rfl, ?_, ?_, hmem, ?_⟩
  · unfold sorted_docs
    exact py_sorted_desc_perm _ _
  · have h := py_sorted_desc_pairwise (group_size tests)
      (fun d e => first_encounter tests d < first_encounter tests e)
      ((test_groups tests).map Prod.fst)
      (hpw.imp (fun hde => fun _ => hde))
    exact h.imp (fun hp => ⟨hp.1, hp.2⟩)
  · intro p hp
    have hl : (test_groups tests).lookup p.1 = some p.2 :=
      assoc_lookup _ p.1 p.2 hnd (by simpa using hp)
    simp [group_size, hl]

/-- Claim C4 is refuted at the line "3.14": the per-line normalizer
yields "<DEC>.<DEC>", not a line containing the token "<FLOAT>", because
the bare-integer rule runs before the float rule and consumes both digit
runs. -/
theorem float_rule_counterexample :
    clean_line ("3.14") = ("<DEC>.<DEC>")
    ∧ containsSub (("<FLOAT>").data) ((clean_line ("3.14")).data) = false := by
  decide

/-- Claim C5 is refuted at the line "deadbee": a pure-hexadecimal run
shorter than 8 characters is left unchanged, not replaced by "<HEX>" —
the hex rule `\b[0-9a-fA-F]{8,}\b` itself requires at least 8
characters. -/
theorem hex_rule_counterexample :
    clean_line ("deadbee") = ("deadbee")
    ∧ containsSub (("<HEX>").data) ((clean_line ("deadbee")).data) = false := by
  decide

/-- Claim C6 is refuted: after the marker line, the empty line does not
return the scanner to `keep` (the emptiness check precedes the mode
check), so the following "* x" line is still dropped; the claim predicts
it would be re-evaluated in `keep` mode and emitted. -/
theorem star_mode_counterexample :
    clean_doc [("* Test run information:"), (""), ("* x"), ("y")] = [("y")]
    ∧ ¬ (("* x") ∈ clean_doc [("* Test run information:"), (""), ("* x"), ("y")]) := by
  decide

/-- Claim C6 (amended): in the skip-bulleted-block state, empty lines
and lines containing an always-noise substring are dropped while the
scanner remains in the skip state (their check precedes the mode check);
any other line starting with a star is dropped; the first line that is
non-empty, noise-free and does not start with a star is handled under
`keep` rules in the same pass. -/
theorem star_mode_amended (l : String) (rest : List String) :
    (clean_line l = "" ∨ common_line (clean_line l) = true →
      clean_doc_aux Mode.star (l :: rest) = clean_doc_aux Mode.star rest)
    ∧ (clean_line l ≠ "" → common_line (clean_line l) = false →
        py_startswith (clean_line l) ("*") = true →
        clean_doc_aux Mode.star (l :: rest) = clean_doc_aux Mode.star rest)
    ∧ (clean_line l ≠ "" → common_line (clean_line l) = false →
        py_startswith (clean_line l) ("*") = false →
        clean_doc_aux Mode.star (l :: rest)
          = keep_eval (fun m => clean_doc_aux m rest) (clean_line l)) := by
  refine ⟨?_, ?_, ?_⟩
  · intro h
    have hc : (decide (clean_line l = "") || common_line (clean_line l)) = true := by
      rcases h with h | h
      · simp [h]
      · simp [h]
    simp [clean_doc_aux, hc]
  · intro h1 h2 h3
    have hc : (decide (clean_line l = "") || common_line (clean_line l)) = false := by
      simp [h1, h2]
    simp [clean_doc_aux, hc, h3]
  · intro h1 h2 h3
    have hc : (decide (clean_line l = "") || common_line (clean_line l)) = false := by
      simp [h1, h2]
    simp [clean_doc_aux, hc, h3]

/-- Witness for the amended C6 at concrete lines: an empty line keeps
the scanner skipping, a star line is dropped, a plain line is handled
under keep rules. -/
theorem star_mode_amended_witness :
    (clean_line ("") = ""
      ∧ clean_doc_aux Mode.star [(""), ("* x")] = clean_doc_aux Mode.star [("* x")])
    ∧ (clean_line ("* x") ≠ "" ∧ common_line (clean_line ("* x")) = false
      ∧ py_startswith (clean_line ("* x")) ("*") = true
      ∧ clean_doc_aux Mode.star [("* x"), ("y")] = clean_doc_aux Mode.star [("y")])
    ∧ (clean_line ("y") ≠ "" ∧ common_line (clean_line ("y")) = false
      ∧ py_startswith (clean_line ("y")) ("*") = false
      ∧ clean_doc_aux Mode.star [("y")]
          = keep_eval (fun m => clean_doc_aux m []) (clean_line ("y"))) :=
  ⟨⟨by decide, (star_mode_amended ("") [("* x")]).1 (Or.inl (by decide))⟩,
   ⟨by decide, by decide, by decide,
     (star_mode_amended ("* x") [("y")]).2.1 (by decide) (by decide) (by decide)⟩,
   ⟨by decide, by decide, by decide,
     (star_mode_amended ("y") []).2.2 (by decide) (by decide) (by decide)⟩⟩

/-- Claim C7 is refuted: when a line between the braces is itself a
closing brace, the scanner leaves the block there, and subsequent lines
including the final closing-brace line are emitted. -/
theorem block_skip_counterexample :
    clean_doc [("model User \x7b"), ("\x7d"), ("x"), ("\x7d")] = [("x"), ("\x7d")]
    ∧ ("\x7d") ∈ clean_doc [("model User \x7b"), ("\x7d"), ("x"), ("\x7d")] := by
  decide

/-- Claim C7 (amended): a line "model User \x7b" followed by arbitrary
lines followed by a line "\x7d" is fully elided from the normalized
output, provided no line strictly between the braces itself normalizes
to exactly the closing brace (at such a line the scanner exits the block
early and later lines are processed in keep mode). -/
theorem block_skip_amended (mid rest : List String)
    (h : ∀ l ∈ mid, clean_line l ≠ ("\x7d")) :
    clean_doc_aux Mode.keep (("model User \x7b") :: mid ++ ("\x7d") :: rest)
      = clean_doc_aux Mode.keep rest := by
  have h1 : clean_doc_aux Mode.keep (("model User \x7b") :: mid ++ ("\x7d") :: rest)
      = clean_doc_aux Mode.block (mid ++ ("\x7d") :: rest) := rfl
  rw [h1]
  clear h1
  induction mid with
  | nil => rfl
  | cons m ms ih =>
    have hm : clean_line m ≠ ("\x7d") := h m (by simp)
    have hrest : ∀ l ∈ ms, clean_line l ≠ ("\x7d") := fun l hl => h l (by simp [hl])
    by_cases hempty : (decide (clean_line m = "") || common_line (clean_line m)) = true
    · rw [List.cons_append]
      simp only [clean_doc_aux, hempty]
      exact ih hrest
    · rw [List.cons_append]
      rw [Bool.not_eq_true] at hempty
      simp only [clean_doc_aux, hempty, hm]
      exact ih hrest

/-! ### Metatheory of the pattern engine, towards idempotence of the
normalizer.  `Parses pat u` captures the words a `\b`-free pattern can
consume; `matchEnds` is sound and complete for it. -/

theorem takeRun_le_length (p : Char → Bool) (s : List Char) : takeRun p s ≤ s.length := by
  induction s with
  | nil => simp [takeRun]
  | cons c cs ih =>
    by_cases h : p c = true
    · simp [takeRun, h]
      omega
    · simp [takeRun, h]

theorem takeRun_mem (p : Char → Bool) (s : List Char) :
    ∀ c ∈ s.take (takeRun p s), p c = true := by
  induction s with
  | nil => simp
  | cons c cs ih =>
    intro x hx
    by_cases h : p c = true
    · rw [takeRun, if_pos h, List.take_succ_cons] at hx
      rcases List.mem_cons.mp hx with rfl | hx'
      · exact h
      · exact ih x hx'
    · rw [takeRun, if_neg h] at hx
      simp at hx

theorem takeRun_append_ge (p : Char → Bool) (u v : List Char)
    (h : ∀ c ∈ u, p c = true) : u.length ≤ takeRun p (u ++ v) := by
  induction u with
  | nil => simp
  | cons c cs ih =>
    have hc := h c (by simp)
    rw [List.cons_append, takeRun, if_pos hc]
    have := ih (fun x hx => h x (by simp [hx]))
    simp
    omega

theorem mem_repCounts {lo top k : Nat} {lazy : Bool} :
    k ∈ repCounts lo top lazy ↔ lo ≤ k ∧ k ≤ top := by
  unfold repCounts
  by_cases h : lazy = true
  · rw [if_pos h, List.mem_range']
    constructor
    · rintro ⟨i, hi, rfl⟩
      omega
    · intro hk
      exact ⟨k - lo, by omega, by omega⟩
  · rw [if_neg h, List.mem_reverse, List.mem_range']
    constructor
    · rintro ⟨i, hi, rfl⟩
      omega
    · intro hk
      exact ⟨k - lo, by omega, by omega⟩

theorem matchEnds_sound (pat : Pat) :
    ∀ (prev : Option Char) (s : List Char) (pr : Option Char × List Char),
      pr ∈ matchEnds pat prev s →
      ∃ u, s = u ++ pr.2 ∧ (wbFree pat = true → Parses pat u) := by
  induction pat with
  | lit cs =>
    intro prev s pr hpr
    rw [matchEnds] at hpr
    by_cases h : cs.isPrefixOf s
    · rw [if_pos h] at hpr
      simp at hpr
      subst hpr
      refine ⟨cs, ?_, fun _ => Parses.lit cs⟩
      obtain ⟨t, ht⟩ := List.isPrefixOf_iff_prefix.mp h
      simp only []
      rw [← ht, List.drop_left]
    · rw [if_neg h] at hpr
      simp at hpr
  | cls p lo hi lazy =>
    intro prev s pr hpr
    simp only [matchEnds] at hpr
    split at hpr
    · simp at hpr
    · rw [List.mem_map] at hpr
      obtain ⟨k, hk, rfl⟩ := hpr
      rw [mem_repCounts] at hk
      have hktop : k ≤ takeRun p s := by
        rcases hi with _ | hcap
        · exact hk.2
        · have h2 : k ≤ min (takeRun p s) hcap := hk.2
          exact le_trans h2 (Nat.min_le_left _ _)
      have hklen : k ≤ s.length := le_trans hktop (takeRun_le_length p s)
      refine ⟨s.take k, by simp [List.take_append_drop], fun _ => ?_⟩
      refine Parses.cls p lo hi lazy (s.take k) ?_ ?_ ?_
      · simp [List.length_take]
        omega
      · intro h hh
        rcases hi with _ | h'
        · simp at hh
        · simp at hh
          subst hh
          simp [List.length_take]
          left
          have h2 : k ≤ min (takeRun p s) h' := hk.2
          exact le_trans h2 (Nat.min_le_right _ _)
      · intro c hc
        have : c ∈ s.take (takeRun p s) := by
          have h1 : s.take k = (s.take (takeRun p s)).take k := by
            rw [List.take_take, Nat.min_eq_left hktop]
          rw [h1] at hc
          exact List.take_subset _ _ hc
        exact takeRun_mem p s c this
  | wb =>
    intro prev s pr hpr
    rw [matchEnds] at hpr
    split at hpr
    · simp at hpr
      subst hpr
      exact ⟨[], by simp, fun h => by simp [wbFree] at h⟩
    · simp at hpr
  | seq a b iha ihb =>
    intro prev s pr hpr
    rw [matchEnds, List.mem_flatMap] at hpr
    obtain ⟨pra, hpra, hprb⟩ := hpr
    obtain ⟨ua, hua, hpa⟩ := iha prev s pra hpra
    obtain ⟨ub, hub, hpb⟩ := ihb pra.1 pra.2 pr hprb
    refine ⟨ua ++ ub, by rw [hua, hub, List.append_assoc], fun h => ?_⟩
    rw [wbFree, Bool.and_eq_true] at h
    exact Parses.seq a b ua ub (hpa h.1) (hpb h.2)
  | alt a b iha ihb =>
    intro prev s pr hpr
    rw [matchEnds, List.mem_append] at hpr
    rcases hpr with hpr | hpr
    · obtain ⟨u, hu, hp⟩ := iha prev s pr hpr
      refine ⟨u, hu, fun h => ?_⟩
      rw [wbFree, Bool.and_eq_true] at h
      exact Parses.altl a b u (hp h.1)
    · obtain ⟨u, hu, hp⟩ := ihb prev s pr hpr
      refine ⟨u, hu, fun h => ?_⟩
      rw [wbFree, Bool.and_eq_true] at h
      exact Parses.altr a b u (hp h.2)

theorem matchEnds_complete {pat : Pat} {u : List Char} (hp : Parses pat u) :
    wbFree pat = true →
    ∀ (prev : Option Char) (v : List Char),
      ∃ pr ∈ matchEnds pat prev (u ++ v), pr.2 = v := by
  induction hp with
  | lit cs =>
    intro _ prev v
    have h : cs.isPrefixOf (cs ++ v) = true :=
      List.isPrefixOf_iff_prefix.mpr (List.prefix_append cs v)
    rw [matchEnds, if_pos h]
    refine ⟨_, List.mem_singleton_self _, ?_⟩
    simp [List.drop_left]
  | cls p lo hi lazy w hlen hhi hall =>
    intro _ prev v
    have hrun : w.length ≤ takeRun p (w ++ v) := takeRun_append_ge p w v hall
    rcases hi with _ | hcap
    · simp only [matchEnds]
      rw [if_neg (by omega)]
      refine ⟨(lastConsumed prev (w ++ v) w.length, (w ++ v).drop w.length), ?_, ?_⟩
      · rw [List.mem_map]
        exact ⟨w.length, mem_repCounts.mpr ⟨hlen, hrun⟩, rfl⟩
      · simp [List.drop_left]
    · have hle : w.length ≤ hcap := hhi hcap (by simp)
      have hmin : w.length ≤ min (takeRun p (w ++ v)) hcap := le_min hrun hle
      simp only [matchEnds]
      rw [if_neg (by omega)]
      refine ⟨(lastConsumed prev (w ++ v) w.length, (w ++ v).drop w.length), ?_, ?_⟩
      · rw [List.mem_map]
        exact ⟨w.length, mem_repCounts.mpr ⟨hlen, hmin⟩, rfl⟩
      · simp [List.drop_left]
  | seq a b ua ub hpa hpb iha ihb =>
    intro hwb prev v
    rw [wbFree, Bool.and_eq_true] at hwb
    obtain ⟨pra, hpra, hpra2⟩ := iha hwb.1 prev (ub ++ v)
    obtain ⟨prb, hprb, hprb2⟩ := ihb hwb.2 pra.1 v
    rw [← hpra2] at hprb
    refine ⟨prb, ?_, hprb2⟩
    rw [matchEnds, List.mem_flatMap]
    exact ⟨pra, by rw [List.append_assoc]; exact hpra, hprb⟩
  | altl a b w hpw ih =>
    intro hwb prev v
    rw [wbFree, Bool.and_eq_true] at hwb
    obtain ⟨pr, hpr, hpr2⟩ := ih hwb.1 prev v
    exact ⟨pr, by rw [matchEnds, List.mem_append]; exact Or.inl hpr, hpr2⟩
  | altr a b w hpw ih =>
    intro hwb prev v
    rw [wbFree, Bool.and_eq_true] at hwb
    obtain ⟨pr, hpr, hpr2⟩ := ih hwb.2 prev v
    exact ⟨pr, by rw [matchEnds, List.mem_append]; exact Or.inr hpr, hpr2⟩

theorem parses_length {pat : Pat} {u : List Char} (hp : Parses pat u) :
    minConsume pat ≤ u.length := by
  induction hp with
  | lit cs => simp [minConsume]
  | cls p lo hi lazy w hlen _ _ => simpa [minConsume] using hlen
  | seq a b ua ub _ _ iha ihb =>
    simp only [minConsume, List.length_append]
    omega
  | altl a b w _ ih => exact le_trans (Nat.min_le_left _ _) ih
  | altr a b w _ ih => exact le_trans (Nat.min_le_right _ _) ih

theorem parses_chars {A : Char → Bool} {pat : Pat} {u : List Char}
    (hA : patChars A pat) (hp : Parses pat u) : ∀ c ∈ u, A c = true := by
  induction hp with
  | lit cs => exact hA
  | cls p lo hi lazy w _ _ hall => exact fun c hc => hA c (hall c hc)
  | seq a b ua ub _ _ iha ihb =>
    intro c hc
    rcases List.mem_append.mp hc with h | h
    · exact iha hA.1 c h
    · exact ihb hA.2 c h
  | altl a b w _ ih => exact ih hA.1
  | altr a b w _ ih => exact ih hA.2

theorem matchEnds_ne_iff {pat : Pat} (hwb : wbFree pat = true)
    (prev : Option Char) (s : List Char) :
    matchEnds pat prev s ≠ [] ↔ MatchesAt pat s := by
  constructor
  · intro h
    obtain ⟨pr, hpr⟩ := List.exists_mem_of_ne_nil _ h
    obtain ⟨u, hu, hp⟩ := matchEnds_sound pat prev s pr hpr
    exact ⟨u, pr.2, hu, hp hwb⟩
  · rintro ⟨u, v, rfl, hp⟩
    obtain ⟨pr, hpr, _⟩ := matchEnds_complete hp hwb prev v
    intro hnil
    rw [hnil] at hpr
    exact absurd hpr (List.not_mem_nil pr)

theorem not_matchesAt_nil {pat : Pat} (hmin : 1 ≤ minConsume pat) :
    ¬ MatchesAt pat [] := by
  rintro ⟨u, v, huv, hp⟩
  have hlen := parses_length hp
  have hu : u = [] := (List.append_eq_nil.mp huv.symm).1
  rw [hu] at hlen
  simp at hlen
  omega

theorem hasMatchAux_eq_false_iff {pat : Pat} (hwb : wbFree pat = true)
    (hmin : 1 ≤ minConsume pat) :
    ∀ (prev : Option Char) (s : List Char),
      hasMatchAux pat prev s = false ↔ NoMatchAll pat s := by
  intro prev s
  induction s generalizing prev with
  | nil =>
    constructor
    · intro _ t ht
      rw [List.suffix_nil] at ht
      subst ht
      exact not_matchesAt_nil hmin
    · intro _
      rfl
  | cons c rest ih =>
    rw [hasMatchAux, Bool.or_eq_false_iff]
    constructor
    · rintro ⟨h1, h2⟩ t ht
      rcases List.suffix_cons_iff.mp ht with rfl | ht'
      · intro hm
        have hne := (matchEnds_ne_iff hwb prev (c :: rest)).mpr hm
        rw [Bool.not_eq_false', List.isEmpty_iff] at h1
        exact hne h1
      · exact (ih (some c)).mp h2 t ht'
    · intro h
      refine ⟨?_, (ih (some c)).mpr (fun t ht => h t (ht.trans (List.suffix_cons c rest)))⟩
      rw [Bool.not_eq_false', List.isEmpty_iff]
      by_contra hne
      exact h (c :: rest) List.suffix_rfl ((matchEnds_ne_iff hwb prev (c :: rest)).mp hne)

theorem noMatchAll_suffix {pat : Pat} {s t : List Char}
    (h : NoMatchAll pat s) (ht : t <:+ s) : NoMatchAll pat t :=
  fun x hx => h x (hx.trans ht)

theorem subAux_id {pat : Pat} {repl : List Char} :
    ∀ (fuel : Nat) (prev : Option Char) (s : List Char),
      hasMatchAux pat prev s = false → subAux pat repl fuel prev s = s := by
  intro fuel
  induction fuel with
  | zero =>
    intro prev s _
    rfl
  | succ n ih =>
    intro prev s h
    cases s with
    | nil => rfl
    | cons c rest =>
      rw [hasMatchAux, Bool.or_eq_false_iff] at h
      have hme : matchEnds pat prev (c :: rest) = [] := by
        have h1 := h.1
        rwa [Bool.not_eq_false', List.isEmpty_iff] at h1
      rw [subAux, hme]
      simp only [List.head?]
      rw [ih (some c) rest h.2]

theorem pySub_id {pat : Pat} {repl : List Char} {s : List Char}
    (h : hasMatch pat s = false) : pySub pat repl s = s :=
  subAux_id _ none s h

theorem suffix_append_cases {r X t : List Char} (h : t <:+ r ++ X) :
    t <:+ X ∨ ∃ rr, rr <:+ r ∧ rr ≠ [] ∧ t = rr ++ X := by
  induction r with
  | nil => exact Or.inl (by simpa using h)
  | cons a r ih =>
    rw [List.cons_append] at h
    rcases List.suffix_cons_iff.mp h with rfl | h'
    · exact Or.inr ⟨a :: r, List.suffix_rfl, by simp, by simp⟩
    · rcases ih h' with h'' | ⟨rr, hrr, hne, rfl⟩
      · exact Or.inl h''
      · exact Or.inr ⟨rr, hrr.trans (List.suffix_cons a r), hne, rfl⟩

theorem subAux_allpre {q : Pat} {r : List Char} {A : Char → Bool}
    (hrne : r ≠ []) (hrh : ∀ c ∈ r.head?, A c = false) :
    ∀ (fuel : Nat) (prev : Option Char) (s : List Char) (w : List Char),
      (∀ c ∈ w, A c = true) → w <+: subAux q r fuel prev s → w <+: s := by
  intro fuel
  induction fuel with
  | zero =>
    intro prev s w _ hw
    exact hw
  | succ n ih =>
    intro prev s w hwA hw
    cases s with
    | nil =>
      simpa [subAux] using hw
    | cons c rest =>
      cases w with
      | nil => simp
      | cons d w' =>
        rw [subAux] at hw
        cases hme : (matchEnds q prev (c :: rest)).head? with
        | none =>
          rw [hme] at hw
          simp only [List.head?] at hw
          rw [List.cons_prefix_cons] at hw
          rw [hw.1]
          exact List.cons_prefix_cons.mpr ⟨rfl, ih (some c) rest w'
            (fun x hx => hwA x (by simp [hx])) hw.2⟩
        | some pr =>
          rw [hme] at hw
          simp only at hw
          obtain ⟨rh, rt, rfl⟩ : ∃ rh rt, r = rh :: rt := by
            cases r with
            | nil => exact absurd rfl hrne
            | cons rh rt => exact ⟨rh, rt, rfl⟩
          have hd : d = rh := by
            split at hw <;>
              (rw [List.cons_append, List.cons_prefix_cons] at hw; exact hw.1)
          have hAf : A rh = false := hrh rh rfl
          have hAt : A d = true := hwA d (by simp)
          rw [hd, hAf] at hAt
          exact absurd hAt (by simp)

theorem subAux_head {q : Pat} {r : List Char} (hrne : r ≠ []) :
    ∀ (fuel : Nat) (prev : Option Char) (s : List Char) (b : Char),
      (subAux q r fuel prev s).head? = some b →
      r.head? = some b ∨ s.head? = some b := by
  intro fuel
  induction fuel with
  | zero =>
    intro prev s b hb
    exact Or.inr hb
  | succ n ih =>
    intro prev s b hb
    cases s with
    | nil => simp [subAux] at hb
    | cons c rest =>
      rw [subAux] at hb
      cases hme : (matchEnds q prev (c :: rest)).head? with
      | none =>
        rw [hme] at hb
        simp only [List.head?] at hb
        exact Or.inr hb
      | some pr =>
        rw [hme] at hb
        simp only at hb
        obtain ⟨rh, rt, rfl⟩ : ∃ rh rt, r = rh :: rt := by
          cases r with
          | nil => exact absurd rfl hrne
          | cons rh rt => exact ⟨rh, rt, rfl⟩
        left
        split at hb <;> simp_all

/-- Witness for the amended C7 at a concrete block. -/
theorem block_skip_amended_witness :
    (∀ l ∈ [("id Int"), ("name String")], clean_line l ≠ ("\x7d"))
    ∧ clean_doc_aux Mode.keep
        (("model User \x7b") :: [("id Int"), ("name String")] ++ ("\x7d") :: [("after")])
      = clean_doc_aux Mode.keep [("after")] :=
  ⟨by decide,
    block_skip_amended [("id Int"), ("name String")] [("after")] (by decide)⟩

theorem prevAt_append (a b : List Char) :
    ∀ prev, prevAt prev (a ++ b) = prevAt (prevAt prev a) b := by
  induction a with
  | nil => intro prev; rfl
  | cons c cs ih => intro prev; exact ih (some c)

theorem prevAt_congr {a : List Char} (ha : a ≠ []) (prev prev2 : Option Char) :
    prevAt prev a = prevAt prev2 a := by
  cases a with
  | nil => exact absurd rfl ha
  | cons c cs => rfl

theorem prevAt_eq_getLast {cs : List Char} (h : cs ≠ []) (prev : Option Char) :
    prevAt prev cs = cs.getLast? := by
  induction cs generalizing prev with
  | nil => exact absurd rfl h
  | cons c t ih =>
    cases t with
    | nil => rfl
    | cons d t2 =>
      rw [prevAt, ih (by simp)]
      rw [List.getLast?_cons_cons]

theorem prevAt_take {s : List Char} {k : Nat} (hk : k ≤ s.length) (prev : Option Char) :
    prevAt prev (s.take k) = lastConsumed prev s k := by
  rcases Nat.eq_zero_or_pos k with rfl | hpos
  · simp [prevAt, lastConsumed]
  · have hne : s.take k ≠ [] := by
      intro h0
      rw [List.take_eq_nil_iff] at h0
      rcases h0 with h0 | h0
      · omega
      · subst h0
        simp at hk
        omega
    rw [prevAt_eq_getLast hne, lastConsumed, if_neg (by omega)]
    rw [List.getLast?_eq_getElem?]
    rw [List.length_take, Nat.min_eq_left hk]
    rw [List.getElem?_take_of_lt (by omega)]

theorem matchEnds_sound2 (pat : Pat) :
    ∀ (prev : Option Char) (s : List Char) (pr : Option Char × List Char),
      pr ∈ matchEnds pat prev s →
      ∃ u, s = u ++ pr.2 ∧ pr.1 = prevAt prev u ∧ minConsume pat ≤ u.length := by
  induction pat with
  | lit cs =>
    intro prev s pr hpr
    rw [matchEnds] at hpr
    by_cases h : cs.isPrefixOf s
    · rw [if_pos h] at hpr
      simp at hpr
      subst hpr
      refine ⟨cs, ?_, ?_, by simp [minConsume]⟩
      · obtain ⟨t, ht⟩ := List.isPrefixOf_iff_prefix.mp h
        simp only []
        rw [← ht, List.drop_left]
      · simp only []
        by_cases hcs : cs = []
        · subst hcs
          simp [prevAt]
        · rw [if_neg (by simpa using hcs)]
          exact (prevAt_eq_getLast hcs prev).symm
    · rw [if_neg h] at hpr
      simp at hpr
  | cls p lo hi lazy =>
    intro prev s pr hpr
    simp only [matchEnds] at hpr
    split at hpr
    · simp at hpr
    · rw [List.mem_map] at hpr
      obtain ⟨k, hk, rfl⟩ := hpr
      rw [mem_repCounts] at hk
      have hktop : k ≤ takeRun p s := by
        rcases hi with _ | hcap
        · exact hk.2
        · have h2 : k ≤ min (takeRun p s) hcap := hk.2
          exact le_trans h2 (Nat.min_le_left _ _)
      have hklen : k ≤ s.length := le_trans hktop (takeRun_le_length p s)
      refine ⟨s.take k, by simp [List.take_append_drop], ?_, ?_⟩
      · exact (prevAt_take hklen prev).symm
      · simp only [minConsume, List.length_take]
        omega
  | wb =>
    intro prev s pr hpr
    rw [matchEnds] at hpr
    split at hpr
    · simp at hpr
      subst hpr
      exact ⟨[], by simp, rfl, by simp [minConsume]⟩
    · simp at hpr
  | seq a b iha ihb =>
    intro prev s pr hpr
    rw [matchEnds, List.mem_flatMap] at hpr
    obtain ⟨pra, hpra, hprb⟩ := hpr
    obtain ⟨ua, hua, hpva, hla⟩ := iha prev s pra hpra
    obtain ⟨ub, hub, hpvb, hlb⟩ := ihb pra.1 pra.2 pr hprb
    refine ⟨ua ++ ub, by rw [hua, hub, List.append_assoc], ?_, ?_⟩
    · rw [prevAt_append, ← hpva, hpvb]
    · simp only [minConsume, List.length_append]
      omega
  | alt a b iha ihb =>
    intro prev s pr hpr
    rw [matchEnds, List.mem_append] at hpr
    rcases hpr with hpr | hpr
    · obtain ⟨u, hu, hpv, hl⟩ := iha prev s pr hpr
      exact ⟨u, hu, hpv, le_trans (by simp only [minConsume]; exact Nat.min_le_left _ _) hl⟩
    · obtain ⟨u, hu, hpv, hl⟩ := ihb prev s pr hpr
      exact ⟨u, hu, hpv, le_trans (by simp only [minConsume]; exact Nat.min_le_right _ _) hl⟩

theorem mem_of_head_some {α : Type} {l : List α} {x : α} (h : l.head? = some x) : x ∈ l := by
  cases l with
  | nil => simp at h
  | cons a t =>
    simp at h
    subst h
    exact List.mem_cons_self a t

theorem subAux_subRel {q : Pat} (hq : 1 ≤ minConsume q) (r : List Char) :
    ∀ (fuel : Nat) (prev : Option Char) (s : List Char), s.length ≤ fuel →
      SubRel q r prev s (subAux q r fuel prev s) := by
  intro fuel
  induction fuel with
  | zero =>
    intro prev s hs
    have : s = [] := List.length_eq_zero.mp (by omega)
    subst this
    exact SubRel.nil prev
  | succ n ih =>
    intro prev s hs
    cases s with
    | nil => exact SubRel.nil prev
    | cons c rest =>
      rw [subAux]
      cases hme : (matchEnds q prev (c :: rest)).head? with
      | none =>
        simp only []
        rw [List.head?_eq_none_iff] at hme
        exact SubRel.copy prev c rest _ hme (ih (some c) rest (by simp at hs; omega))
      | some pr =>
        simp only []
        have hmem := mem_of_head_some hme
        obtain ⟨u, hu, _, hlen⟩ := matchEnds_sound2 q prev (c :: rest) pr hmem
        have hlt : pr.2.length < rest.length + 1 := by
          have := congrArg List.length hu
          simp at this
          omega
        rw [if_pos hlt]
        refine SubRel.repl prev (c :: rest) _ pr hme (by simpa using hlt) ?_
        exact ih pr.1 pr.2 (by simp at hs; omega)

theorem pySub_subRel {q : Pat} (hq : 1 ≤ minConsume q) (r : List Char) (s : List Char) :
    SubRel q r none s (pySub q r s) :=
  subAux_subRel hq r (s.length + 1) none s (by omega)

theorem subRel_allpre {q : Pat} {r : List Char} {A : Char → Bool}
    (hrne : r ≠ []) (hrh : ∀ c ∈ r.head?, A c = false) :
    ∀ {prev : Option Char} {s o : List Char}, SubRel q r prev s o →
      ∀ w, (∀ c ∈ w, A c = true) → w <+: o → w <+: s := by
  intro prev s o h
  induction h with
  | nil => intro w _ hw; exact hw
  | copy pv c s o hnone hsub ih =>
    intro w hwA hw
    cases w with
    | nil => simp
    | cons d w2 =>
      rw [List.cons_prefix_cons] at hw
      rw [hw.1]
      exact List.cons_prefix_cons.mpr ⟨rfl, ih w2 (fun x hx => hwA x (by simp [hx])) hw.2⟩
  | repl pv s o pr hme hlt hsub ih =>
    intro w hwA hw
    cases w with
    | nil => simp
    | cons d w2 =>
      obtain ⟨rh, rt, rfl⟩ : ∃ rh rt, r = rh :: rt := by
        cases r with
        | nil => exact absurd rfl hrne
        | cons rh rt => exact ⟨rh, rt, rfl⟩
      rw [List.cons_append, List.cons_prefix_cons] at hw
      have hAf : A rh = false := hrh rh rfl
      have hAt : A d = true := hwA d (by simp)
      rw [hw.1, hAf] at hAt
      exact absurd hAt (by simp)

theorem subRel_chars {q : Pat} {r : List Char} :
    ∀ {prev : Option Char} {s o : List Char}, SubRel q r prev s o →
      ∀ c ∈ o, c ∈ s ∨ c ∈ r := by
  intro prev s o h
  induction h with
  | nil => simp
  | copy pv c s o hnone hsub ih =>
    intro x hx
    rcases List.mem_cons.mp hx with rfl | hx2
    · exact Or.inl (by simp)
    · rcases ih x hx2 with h1 | h2
      · exact Or.inl (by simp [h1])
      · exact Or.inr h2
  | repl pv s o pr hme hlt hsub ih =>
    intro x hx
    rcases List.mem_append.mp hx with h1 | h2
    · exact Or.inr h1
    · rcases ih x h2 with h3 | h4
      · obtain ⟨u, hu, _, _⟩ := matchEnds_sound2 q pv s pr (mem_of_head_some hme)
        exact Or.inl (by rw [hu]; exact List.mem_append_right u h3)
      · exact Or.inr h4

theorem subRel_nomatch_self {p : Pat} {r : List Char} {A F : Char → Bool}
    (hwb : wbFree p = true) (hmin : 1 ≤ minConsume p) (hA : patChars A p)
    (hPF : ∀ u, Parses p u → ∀ h ∈ u.head?, F h = true)
    (hrne : r ≠ []) (hrF : ∀ c ∈ r, F c = false)
    (hrhA : ∀ c ∈ r.head?, A c = false) :
    ∀ {prev : Option Char} {s o : List Char}, SubRel p r prev s o → NoMatchAll p o := by
  intro prev s o h
  induction h with
  | nil =>
    intro t ht
    rw [List.suffix_nil] at ht
    subst ht
    exact not_matchesAt_nil hmin
  | copy pv c s o hnone hsub ih =>
    intro t ht hm
    rcases List.suffix_cons_iff.mp ht with rfl | ht2
    · obtain ⟨u, v, huv, hp⟩ := hm
      cases u with
      | nil =>
        have := parses_length hp
        simp at this
        omega
      | cons d u2 =>
        rw [List.cons_append] at huv
        injection huv with h1 h2
        subst h1
        have hu2 : u2 <+: o := ⟨v, h2.symm⟩
        have hu2s := subRel_allpre hrne hrhA hsub u2
          (fun x hx => parses_chars hA hp x (by simp [hx])) hu2
        obtain ⟨w, hw⟩ := hu2s
        obtain ⟨pr, hpr, _⟩ := matchEnds_complete hp hwb pv w
        rw [List.cons_append, hw, hnone] at hpr
        exact absurd hpr (List.not_mem_nil pr)
    · exact ih t ht2 hm
  | repl pv s o pr hme hlt hsub ih =>
    intro t ht hm
    rcases suffix_append_cases ht with ht2 | ⟨rr, hrr, hrrne, rfl⟩
    · exact ih t ht2 hm
    · obtain ⟨u, v, huv, hp⟩ := hm
      cases u with
      | nil =>
        have := parses_length hp
        simp at this
        omega
      | cons d u2 =>
        obtain ⟨a, rr2, rfl⟩ : ∃ a rr2, rr = a :: rr2 := by
          cases rr with
          | nil => exact absurd rfl hrrne
          | cons a rr2 => exact ⟨a, rr2, rfl⟩
        rw [List.cons_append, List.cons_append] at huv
        injection huv with h1 h2
        subst h1
        have hF : F a = true := hPF (a :: u2) hp a rfl
        have hFd : F a = false := hrF a (hrr.subset (by simp))
        rw [hFd] at hF
        exact absurd hF (by simp)

theorem subRel_nomatch_preserve {q p : Pat} {r : List Char} {A F : Char → Bool}
    (hwb : wbFree p = true) (hmin : 1 ≤ minConsume p) (hA : patChars A p)
    (hPF : ∀ u, Parses p u → ∀ h ∈ u.head?, F h = true)
    (hrne : r ≠ []) (hrF : ∀ c ∈ r, F c = false)
    (hrhA : ∀ c ∈ r.head?, A c = false) :
    ∀ {prev : Option Char} {s o : List Char}, SubRel q r prev s o →
      NoMatchAll p s → NoMatchAll p o := by
  intro prev s o h
  induction h with
  | nil =>
    intro _ t ht
    rw [List.suffix_nil] at ht
    subst ht
    exact not_matchesAt_nil hmin
  | copy pv c s o hnone hsub ih =>
    intro hns t ht hm
    have iho := ih (noMatchAll_suffix hns (List.suffix_cons c s))
    rcases List.suffix_cons_iff.mp ht with rfl | ht2
    · obtain ⟨u, v, huv, hp⟩ := hm
      cases u with
      | nil =>
        have := parses_length hp
        simp at this
        omega
      | cons d u2 =>
        rw [List.cons_append] at huv
        injection huv with h1 h2
        subst h1
        have hu2 : u2 <+: o := ⟨v, h2.symm⟩
        have hu2s := subRel_allpre hrne hrhA hsub u2
          (fun x hx => parses_chars hA hp x (by simp [hx])) hu2
        obtain ⟨w, hw⟩ := hu2s
        refine hns (c :: s) List.suffix_rfl ⟨c :: u2, w, ?_, hp⟩
        rw [List.cons_append, hw]
    · exact iho t ht2 hm
  | repl pv s o pr hme hlt hsub ih =>
    intro hns t ht hm
    obtain ⟨u0, hu0, _, _⟩ := matchEnds_sound2 q pv s pr (mem_of_head_some hme)
    have iho := ih (noMatchAll_suffix hns ⟨u0, hu0.symm⟩)
    rcases suffix_append_cases ht with ht2 | ⟨rr, hrr, hrrne, rfl⟩
    · exact iho t ht2 hm
    · obtain ⟨u, v, huv, hp⟩ := hm
      cases u with
      | nil =>
        have := parses_length hp
        simp at this
        omega
      | cons d u2 =>
        obtain ⟨a, rr2, rfl⟩ : ∃ a rr2, rr = a :: rr2 := by
          cases rr with
          | nil => exact absurd rfl hrrne
          | cons a rr2 => exact ⟨a, rr2, rfl⟩
        rw [List.cons_append, List.cons_append] at huv
        injection huv with h1 h2
        subst h1
        have hF : F a = true := hPF (a :: u2) hp a rfl
        have hFd : F a = false := hrF a (hrr.subset (by simp))
        rw [hFd] at hF
        exact absurd hF (by simp)

theorem pySub_nomatch_self {p : Pat} {r : List Char} {A F : Char → Bool}
    (hwb : wbFree p = true) (hmin : 1 ≤ minConsume p) (hA : patChars A p)
    (hPF : ∀ u, Parses p u → ∀ h ∈ u.head?, F h = true)
    (hrne : r ≠ []) (hrF : ∀ c ∈ r, F c = false)
    (hrhA : ∀ c ∈ r.head?, A c = false) (s : List Char) :
    NoMatchAll p (pySub p r s) :=
  subRel_nomatch_self hwb hmin hA hPF hrne hrF hrhA (pySub_subRel hmin r s)

theorem pySub_nomatch_preserve {q p : Pat} {r : List Char} {A F : Char → Bool}
    (hq : 1 ≤ minConsume q)
    (hwb : wbFree p = true) (hmin : 1 ≤ minConsume p) (hA : patChars A p)
    (hPF : ∀ u, Parses p u → ∀ h ∈ u.head?, F h = true)
    (hrne : r ≠ []) (hrF : ∀ c ∈ r, F c = false)
    (hrhA : ∀ c ∈ r.head?, A c = false) {s : List Char}
    (hns : NoMatchAll p s) : NoMatchAll p (pySub q r s) :=
  subRel_nomatch_preserve hwb hmin hA hPF hrne hrF hrhA (pySub_subRel hq r s) hns

theorem pre_suf_within {x t s : List Char} (h1 : x <+: t) (h2 : t <:+ s) :
    x <:+: s := by
  obtain ⟨a, ha⟩ := h1
  obtain ⟨b, hb⟩ := h2
  exact ⟨b, a, by rw [← hb, ← ha, List.append_assoc]⟩

theorem pyStrip_within (s : List Char) : pyStrip s <:+: s := by
  have h1 : s.dropWhile isPySpace <:+ s := List.dropWhile_suffix isPySpace
  have h2 : (s.dropWhile isPySpace).reverse.dropWhile isPySpace <:+
      (s.dropWhile isPySpace).reverse := List.dropWhile_suffix isPySpace
  obtain ⟨w, hw⟩ := h2
  have h3 : pyStrip s <+: s.dropWhile isPySpace := by
    refine ⟨w.reverse, ?_⟩
    rw [pyStrip]
    rw [← List.reverse_append, hw, List.reverse_reverse]
  exact pre_suf_within h3 h1

theorem noMatchAll_within {p : Pat} {s t : List Char}
    (h : NoMatchAll p s) (ht : t <:+: s) : NoMatchAll p t := by
  intro x hx hm
  obtain ⟨l, rr, hlr⟩ := ht
  obtain ⟨w, hw⟩ := hx
  obtain ⟨u, v, huv, hp⟩ := hm
  refine h (x ++ rr) ⟨l ++ w, ?_⟩ ⟨u, v ++ rr, by rw [← List.append_assoc, ← huv], hp⟩
  rw [← hlr, ← hw]
  simp [List.append_assoc]

theorem seqR_mem {a b : Pat} {pv : Option Char} {s : List Char}
    {pr : Option Char × List Char} :
    pr ∈ matchEnds (.seq a b) pv s ↔ ∃ w ∈ matchEnds a pv s, pr ∈ matchEnds b w.1 w.2 := by
  rw [matchEnds, List.mem_flatMap]

theorem mem_matchEnds_wb {pv : Option Char} {s : List Char} {pr : Option Char × List Char} :
    pr ∈ matchEnds .wb pv s ↔ atBoundary pv s.head? = true ∧ pr = (pv, s) := by
  rw [matchEnds]
  split
  · next h => simp [h]
  · next h => simp [h]

theorem mem_matchEnds_cls_none {p : Char → Bool} {lo : Nat} {lazy : Bool}
    {pv : Option Char} {s : List Char} {pr : Option Char × List Char} :
    pr ∈ matchEnds (.cls p lo none lazy) pv s ↔
      ∃ k, lo ≤ k ∧ k ≤ takeRun p s ∧ pr = (lastConsumed pv s k, s.drop k) := by
  simp only [matchEnds]
  split
  · next h =>
    simp only [List.not_mem_nil, false_iff]
    rintro ⟨k, hk1, hk2, _⟩
    omega
  · next h =>
    rw [List.mem_map]
    constructor
    · rintro ⟨k, hk, rfl⟩
      rw [mem_repCounts] at hk
      exact ⟨k, hk.1, hk.2, rfl⟩
    · rintro ⟨k, hk1, hk2, rfl⟩
      exact ⟨k, mem_repCounts.mpr ⟨hk1, hk2⟩, rfl⟩

theorem mem_matchEnds_cls_some {p : Char → Bool} {lo cap : Nat} {lazy : Bool}
    {pv : Option Char} {s : List Char} {pr : Option Char × List Char} :
    pr ∈ matchEnds (.cls p lo (some cap) lazy) pv s ↔
      ∃ k, lo ≤ k ∧ k ≤ min (takeRun p s) cap ∧ pr = (lastConsumed pv s k, s.drop k) := by
  simp only [matchEnds]
  split
  · next h =>
    simp only [List.not_mem_nil, false_iff]
    rintro ⟨k, hk1, hk2, _⟩
    omega
  · next h =>
    rw [List.mem_map]
    constructor
    · rintro ⟨k, hk, rfl⟩
      rw [mem_repCounts] at hk
      exact ⟨k, hk.1, hk.2, rfl⟩
    · rintro ⟨k, hk1, hk2, rfl⟩
      exact ⟨k, mem_repCounts.mpr ⟨hk1, hk2⟩, rfl⟩

theorem mem_matchEnds_lit {cs : List Char} {pv : Option Char} {s : List Char}
    {pr : Option Char × List Char} :
    pr ∈ matchEnds (.lit cs) pv s ↔
      cs.isPrefixOf s = true
      ∧ pr = ((if cs.isEmpty then pv else cs.getLast?), s.drop cs.length) := by
  rw [matchEnds]
  split
  · next h => simp [h]
  · next h =>
    simp only [List.not_mem_nil, false_iff]
    rintro ⟨h2, _⟩
    exact absurd h2 h

theorem head_drop (s : List Char) (k : Nat) : (s.drop k).head? = s[k]? := by
  induction s generalizing k with
  | nil => simp
  | cons c rest ih =>
    cases k with
    | zero => simp
    | succ n => simpa using ih n

theorem matchEnds_bPat_ne {C : Char → Bool} {lo : Nat} (hlo : 1 ≤ lo)
    (pv : Option Char) (s : List Char) :
    matchEnds (bPat C lo) pv s ≠ [] ↔ BMatchAt C lo pv s := by
  constructor
  · intro h
    obtain ⟨pr, hpr⟩ := List.exists_mem_of_ne_nil _ h
    have hpr2 : pr ∈ matchEnds
        (.seq .wb (.seq (.cls C lo none false) (.seq .wb (.lit [])))) pv s := hpr
    rw [seqR_mem] at hpr2
    obtain ⟨w1, hw1, hr1⟩ := hpr2
    rw [mem_matchEnds_wb] at hw1
    obtain ⟨hb1, rfl⟩ := hw1
    rw [seqR_mem] at hr1
    obtain ⟨w2, hw2, hr2⟩ := hr1
    rw [mem_matchEnds_cls_none] at hw2
    obtain ⟨k, hk1, hk2, rfl⟩ := hw2
    rw [seqR_mem] at hr2
    obtain ⟨w3, hw3, _⟩ := hr2
    rw [mem_matchEnds_wb] at hw3
    refine ⟨hb1, k, hk1, hk2, ?_⟩
    have hb3 := hw3.1
    rw [head_drop] at hb3
    rwa [lastConsumed, if_neg (by omega)] at hb3
  · rintro ⟨hb1, k, hk1, hk2, hb2⟩
    have hwb3 : ((s[k - 1]? : Option Char), s.drop k) ∈
        matchEnds (.seq .wb (.lit [])) (s[k - 1]?) (s.drop k) := by
      rw [seqR_mem]
      refine ⟨(s[k - 1]?, s.drop k), ?_, ?_⟩
      · rw [mem_matchEnds_wb, head_drop]
        exact ⟨hb2, rfl⟩
      · rw [mem_matchEnds_lit]
        simp
    have hcls : ((s[k - 1]? : Option Char), s.drop k) ∈
        matchEnds (.cls C lo none false) pv s := by
      rw [mem_matchEnds_cls_none]
      exact ⟨k, hk1, hk2, by rw [lastConsumed, if_neg (by omega)]⟩
    have hfull : ((s[k - 1]? : Option Char), s.drop k) ∈ matchEnds (bPat C lo) pv s := by
      show _ ∈ matchEnds (.seq .wb (.seq (.cls C lo none false) (.seq .wb (.lit [])))) pv s
      rw [seqR_mem]
      refine ⟨(pv, s), ?_, ?_⟩
      · rw [mem_matchEnds_wb]
        exact ⟨hb1, rfl⟩
      · rw [seqR_mem]
        exact ⟨_, hcls, hwb3⟩
    exact List.ne_nil_of_mem hfull

theorem hasMatchAux_false_iff_pos {pat : Pat} (hmin : 1 ≤ minConsume pat) :
    ∀ (pv : Option Char) (s : List Char),
      hasMatchAux pat pv s = false ↔
        ∀ a t, s = a ++ t → matchEnds pat (prevAt pv a) t = [] := by
  intro pv s
  induction s generalizing pv with
  | nil =>
    simp only [hasMatchAux, true_iff]
    intro a t hat
    obtain ⟨rfl, rfl⟩ : a = [] ∧ t = [] := by
      constructor <;> [exact (List.append_eq_nil.mp hat.symm).1;
        exact (List.append_eq_nil.mp hat.symm).2]
    by_contra hne
    obtain ⟨pr, hpr⟩ := List.exists_mem_of_ne_nil _ hne
    obtain ⟨u, hu, _, hl⟩ := matchEnds_sound2 pat (prevAt pv []) [] pr hpr
    have := congrArg List.length hu
    simp at this
    omega
  | cons c rest ih =>
    rw [hasMatchAux, Bool.or_eq_false_iff]
    constructor
    · rintro ⟨h1, h2⟩ a t hat
      cases a with
      | nil =>
        simp at hat
        subst hat
        rwa [Bool.not_eq_false', List.isEmpty_iff] at h1
      | cons d a2 =>
        rw [List.cons_append] at hat
        injection hat with hd hat2
        subst hd
        exact (ih (some c)).mp h2 a2 t hat2
    · intro h
      refine ⟨?_, (ih (some c)).mpr (fun a t hat => h (c :: a) t (by rw [hat]; rfl))⟩
      rw [Bool.not_eq_false', List.isEmpty_iff]
      exact h [] (c :: rest) rfl

theorem hasMatchAux_bPat_false_iff {C : Char → Bool} {lo : Nat} (hlo : 1 ≤ lo)
    (pv : Option Char) (s : List Char) :
    hasMatchAux (bPat C lo) pv s = false ↔ NoBPos C lo pv s := by
  have hmin : 1 ≤ minConsume (bPat C lo) := by
    show 1 ≤ minConsume (.seq .wb (.seq (.cls C lo none false) (.seq .wb (.lit []))))
    simp [minConsume]
    exact hlo
  rw [hasMatchAux_false_iff_pos hmin]
  constructor
  · intro h a t hat hb
    exact (matchEnds_bPat_ne hlo (prevAt pv a) t).mpr hb (h a t hat)
  · intro h a t hat
    by_contra hne
    exact h a t hat ((matchEnds_bPat_ne hlo _ t).mp hne)

theorem takeRun_mono_class {C1 C2 : Char → Bool} (h : ∀ c, C1 c = true → C2 c = true) :
    ∀ s, takeRun C1 s ≤ takeRun C2 s := by
  intro s
  induction s with
  | nil => simp [takeRun]
  | cons c rest ih =>
    by_cases hc : C1 c = true
    · rw [takeRun, if_pos hc, takeRun, if_pos (h c hc)]
      omega
    · rw [takeRun, if_neg hc]
      omega

theorem takeRun_le_append (C : Char → Bool) (t x : List Char) :
    takeRun C t ≤ takeRun C (t ++ x) := by
  induction t with
  | nil => simp [takeRun]
  | cons c rest ih =>
    by_cases hc : C c = true
    · rw [takeRun, if_pos hc, List.cons_append, takeRun, if_pos hc]
      omega
    · rw [takeRun, if_neg hc]
      omega

theorem takeRun_append_lt {C : Char → Bool} {u : List Char} (x : List Char)
    (h : takeRun C u < u.length) : takeRun C (u ++ x) = takeRun C u := by
  induction u with
  | nil => simp [takeRun] at h
  | cons c rest ih =>
    by_cases hc : C c = true
    · rw [takeRun, if_pos hc] at h ⊢
      rw [List.cons_append, takeRun, if_pos hc, ih (by simp at h; omega)]
    · rw [takeRun, if_neg hc] at h ⊢
      rw [List.cons_append, takeRun, if_neg hc]

theorem takeRun_all_append {C : Char → Bool} {u : List Char}
    (h : ∀ c ∈ u, C c = true) (x : List Char) :
    takeRun C (u ++ x) = u.length + takeRun C x := by
  induction u with
  | nil => simp
  | cons c rest ih =>
    rw [List.cons_append, takeRun, if_pos (h c (by simp)),
      ih (fun d hd => h d (by simp [hd]))]
    simp
    omega

theorem takeRun_append_head_false {C : Char → Bool} {t ss : List Char}
    (hss : ∀ c ∈ ss.head?, C c = false) :
    takeRun C (t ++ ss) = takeRun C t := by
  by_cases h : takeRun C t < t.length
  · exact takeRun_append_lt ss h
  · have hall : ∀ c ∈ t, C c = true := by
      have heq : takeRun C t = t.length := le_antisymm (takeRun_le_length C t) (by omega)
      intro c hc
      have : t.take (takeRun C t) = t := by rw [heq, List.take_length]
      exact takeRun_mem C t c (by rwa [this])
    rw [takeRun_all_append hall]
    have hz : takeRun C ss = 0 := by
      cases ss with
      | nil => rfl
      | cons d w =>
        rw [takeRun, if_neg]
        rw [hss d rfl]
        simp
    rw [hz]
    have heq : takeRun C t = t.length := le_antisymm (takeRun_le_length C t) (by omega)
    omega

theorem takeRun_getElem_false {p : Char → Bool} :
    ∀ (s : List Char) (c : Char), s[takeRun p s]? = some c → p c = false := by
  intro s
  induction s with
  | nil => simp
  | cons d rest ih =>
    intro c hc
    by_cases hd : p d = true
    · rw [takeRun, if_pos hd] at hc
      rw [List.getElem?_cons_succ] at hc
      exact ih c hc
    · rw [takeRun, if_neg hd] at hc
      rw [List.getElem?_cons_zero] at hc
      injection hc with hc2
      subst hc2
      simpa using hd

theorem takeRun_head_pos {p : Char → Bool} {s : List Char} (h : 1 ≤ takeRun p s) :
    ∃ c, s.head? = some c ∧ p c = true := by
  cases s with
  | nil => simp [takeRun] at h
  | cons c rest =>
    by_cases hc : p c = true
    · exact ⟨c, rfl, hc⟩
    · rw [takeRun, if_neg hc] at h
      omega

theorem getElem_cons_one {α : Type} (a : α) (l : List α) : (a :: l)[1]? = l[0]? := by
  rw [show (1 : Nat) = 0 + 1 from rfl, List.getElem?_cons_succ]

theorem getElem_cons_add_two {α : Type} (a : α) (l : List α) (j : Nat) :
    (a :: l)[j + 2]? = l[j + 1]? := by
  rw [show j + 2 = (j + 1) + 1 from rfl, List.getElem?_cons_succ]

theorem subRel_bound_pullback {q : Pat} {r : List Char} {C : Char → Bool}
    (hrne : r ≠ [])
    (hCr : ∀ c ∈ r.head?, C c = false)
    (hWr : isWordO r.head? = false)
    (hq1 : ∀ (pv2 : Option Char) (s2 : List Char), matchEnds q pv2 s2 ≠ [] →
      isWordO pv2 = true → isWordO s2.head? = false) :
    ∀ {pv : Option Char} {s o : List Char}, SubRel q r pv s o →
      ∀ k, 1 ≤ k → k ≤ takeRun C o → atBoundary o[k - 1]? o[k]? = true →
        ∃ k2, k ≤ k2 ∧ k2 ≤ takeRun C s ∧ atBoundary s[k2 - 1]? s[k2]? = true := by
  intro pv s o h
  induction h with
  | nil =>
    intro k hk1 hk2 _
    rw [takeRun] at hk2
    omega
  | copy pv c s2 o2 hnone hsub ih =>
    intro k hk1 hk2 hb
    have hCc : C c = true := by
      by_contra hc
      rw [takeRun, if_neg hc] at hk2
      omega
    rw [takeRun, if_pos hCc] at hk2
    rcases Nat.lt_or_ge k 2 with hklt | hkge
    · have hk1e : k = 1 := by omega
      subst hk1e
      rw [show (1 : Nat) - 1 = 0 from rfl, List.getElem?_cons_zero,
        getElem_cons_one] at hb
      cases hsub with
      | nil =>
        refine ⟨1, le_rfl, ?_, ?_⟩
        · rw [takeRun, if_pos hCc]
          omega
        · rw [show (1 : Nat) - 1 = 0 from rfl, List.getElem?_cons_zero,
            getElem_cons_one]
          exact hb
      | copy pv2 d s3 o3 hnone2 hsub2 =>
        refine ⟨1, le_rfl, ?_, ?_⟩
        · rw [takeRun, if_pos hCc]
          omega
        · rw [show (1 : Nat) - 1 = 0 from rfl, List.getElem?_cons_zero,
            getElem_cons_one, List.getElem?_cons_zero]
          rw [List.getElem?_cons_zero] at hb
          exact hb
      | repl pv2 sx o3 pr2 hme hlt hsub2 =>
        obtain ⟨rh, rt, rfl⟩ : ∃ rh rt, r = rh :: rt := by
          cases r with
          | nil => exact absurd rfl hrne
          | cons rh rt => exact ⟨rh, rt, rfl⟩
        rw [show ((rh :: rt ++ o3) : List Char)[0]? = some rh from
          List.getElem?_cons_zero] at hb
        have hWr2 : isWord rh = false := by simpa [isWordO] using hWr
        have hcw : isWord c = true := by
          cases hic : isWord c
          · exfalso
            rw [atBoundary] at hb
            simp only [isWordO] at hb
            rw [hic, hWr2] at hb
            simp at hb
          · rfl
        have hne : matchEnds q (some c) s2 ≠ [] := by
          intro h0
          rw [h0] at hme
          simp at hme
        have hs2w : isWordO s2.head? = false :=
          hq1 (some c) s2 hne (by simp only [isWordO]; exact hcw)
        obtain ⟨e, s4, rfl⟩ : ∃ e s4, s2 = e :: s4 := by
          cases s2 with
          | nil => simp at hlt
          | cons e s4 => exact ⟨e, s4, rfl⟩
        have he : isWord e = false := by simpa [isWordO] using hs2w
        refine ⟨1, le_rfl, ?_, ?_⟩
        · rw [takeRun, if_pos hCc]
          omega
        · rw [show (1 : Nat) - 1 = 0 from rfl, List.getElem?_cons_zero,
            getElem_cons_one, List.getElem?_cons_zero]
          rw [atBoundary]
          simp only [isWordO]
          rw [hcw, he]
          rfl
    · obtain ⟨j, rfl⟩ : ∃ j, k = j + 2 := ⟨k - 2, by omega⟩
      rw [show j + 2 - 1 = j + 1 from rfl, List.getElem?_cons_succ,
        getElem_cons_add_two] at hb
      obtain ⟨k2, hk2a, hk2b, hk2c⟩ := ih (j + 1) (by omega) (by omega)
        (by rw [show j + 1 - 1 = j from rfl]; exact hb)
      obtain ⟨j2, rfl⟩ : ∃ j2, k2 = j2 + 1 := ⟨k2 - 1, by omega⟩
      refine ⟨j2 + 2, by omega, ?_, ?_⟩
      · rw [takeRun, if_pos hCc]
        omega
      · rw [show j2 + 2 - 1 = j2 + 1 from rfl, List.getElem?_cons_succ,
          getElem_cons_add_two]
        rw [show j2 + 1 - 1 = j2 from rfl] at hk2c
        exact hk2c
  | repl pv s2 o2 pr hme hlt hsub ih =>
    intro k hk1 hk2 _
    obtain ⟨rh, rt, rfl⟩ : ∃ rh rt, r = rh :: rt := by
      cases r with
      | nil => exact absurd rfl hrne
      | cons rh rt => exact ⟨rh, rt, rfl⟩
    rw [List.cons_append, takeRun, if_neg (by rw [hCr rh rfl]; simp)] at hk2
    omega

theorem not_bMatchAt_nil {C : Char → Bool} {lo : Nat} {pv : Option Char}
    (hlo : 1 ≤ lo) : ¬ BMatchAt C lo pv ([] : List Char) := by
  rintro ⟨_, k, hk1, hk2, _⟩
  rw [takeRun] at hk2
  omega

theorem bPat_hq1 {C : Char → Bool} {lo : Nat} (hlo : 1 ≤ lo) :
    ∀ (pv : Option Char) (s : List Char), matchEnds (bPat C lo) pv s ≠ [] →
      isWordO pv = true → isWordO s.head? = false := by
  intro pv s hne hw
  obtain ⟨hb, _⟩ := (matchEnds_bPat_ne hlo pv s).mp hne
  rw [atBoundary, hw] at hb
  cases h2 : isWordO s.head?
  · rfl
  · rw [h2] at hb
    simp at hb

theorem bPat_hq2 {C : Char → Bool} {lo : Nat} :
    ∀ (pv : Option Char) (s : List Char) (pr : Option Char × List Char),
      pr ∈ matchEnds (bPat C lo) pv s →
      isWordO pr.1 = true → isWordO pr.2.head? = false := by
  intro pv s pr hpr hw
  have hpr2 : pr ∈ matchEnds
      (.seq .wb (.seq (.cls C lo none false) (.seq .wb (.lit [])))) pv s := hpr
  rw [seqR_mem] at hpr2
  obtain ⟨w1, hw1, hr1⟩ := hpr2
  rw [mem_matchEnds_wb] at hw1
  obtain ⟨_, rfl⟩ := hw1
  rw [seqR_mem] at hr1
  obtain ⟨w2, hw2, hr2⟩ := hr1
  rw [seqR_mem] at hr2
  obtain ⟨w3, hw3, hl⟩ := hr2
  rw [mem_matchEnds_wb] at hw3
  obtain ⟨hb3, rfl⟩ := hw3
  rw [mem_matchEnds_lit] at hl
  obtain ⟨_, rfl⟩ := hl
  simp only [List.isEmpty_nil, if_pos, List.length_nil, List.drop_zero] at hb3 hw ⊢
  rw [atBoundary, hw] at hb3
  cases h2 : isWordO w2.2.head?
  · rfl
  · rw [h2] at hb3
    simp at hb3

theorem subRel_preserve_bPat {q : Pat} {r : List Char} {C : Char → Bool} {lo : Nat}
    (hlo : 1 ≤ lo) (hrne : r ≠ [])
    (hCr : ∀ c ∈ r.head?, C c = false)
    (hWr : isWordO r.head? = false)
    (hWl : ∀ c ∈ r.getLast?, isWord c = false)
    (hrRun : ∀ rr, rr <:+ r → rr ≠ [] → takeRun C rr < lo ∧ takeRun C rr < rr.length)
    (hq1 : ∀ (pv2 : Option Char) (s2 : List Char), matchEnds q pv2 s2 ≠ [] →
      isWordO pv2 = true → isWordO s2.head? = false)
    (hq2 : ∀ (pv2 : Option Char) (s2 : List Char) (pr2 : Option Char × List Char),
      pr2 ∈ matchEnds q pv2 s2 → isWordO pr2.1 = true → isWordO pr2.2.head? = false) :
    ∀ {pv : Option Char} {s o : List Char}, SubRel q r pv s o →
      ∀ po, (isWordO po = isWordO pv ∨ (isWordO po = false ∧ isWordO s.head? = false)) →
        NoBPos C lo pv s → NoBPos C lo po o := by
  intro pv s o h
  induction h with
  | nil =>
    intro po _ _ a t hat _
    obtain ⟨rfl, rfl⟩ : a = [] ∧ t = [] :=
      ⟨(List.append_eq_nil.mp hat.symm).1, (List.append_eq_nil.mp hat.symm).2⟩
    next hbm => exact not_bMatchAt_nil hlo hbm
  | copy pv c s2 o2 hnone hsub ih =>
    intro po hw hns a t hat hbm
    cases a with
    | nil =>
      simp only [List.nil_append] at hat
      subst hat
      obtain ⟨hbf, k, hk1, hk2, hkb⟩ := hbm
      have hbf2 : atBoundary pv (some c) = true := by
        rcases hw with hw1 | hw2
        · rw [atBoundary, ← hw1]
          exact hbf
        · exfalso
          have hbf3 : (isWordO po != isWordO (some c)) = true := hbf
          have hcs : isWordO (some c) = false := hw2.2
          rw [hw2.1, hcs] at hbf3
          simp at hbf3
      obtain ⟨k2, hk2a, hk2b, hk2c⟩ :=
        subRel_bound_pullback hrne hCr hWr hq1 (SubRel.copy pv c s2 o2 hnone hsub)
          k (by omega) hk2 hkb
      exact hns [] (c :: s2) rfl ⟨hbf2, k2, by omega, hk2b, hk2c⟩
    | cons d a2 =>
      rw [List.cons_append] at hat
      injection hat with h1 h2
      subst h1
      have hns2 : NoBPos C lo (some c) s2 := by
        intro a3 t3 h3 hb3
        exact hns (c :: a3) t3 (by rw [h3]; rfl) hb3
      exact ih (some c) (Or.inl rfl) hns2 a2 t h2 hbm
  | repl pv s2 o2 pr hme hlt hsub ih =>
    intro po hw hns a t hat hbm
    have hpo2 : isWordO (prevAt po r) = false := by
      rw [prevAt_eq_getLast hrne]
      cases hgl : r.getLast? with
      | none => rfl
      | some x => simpa [isWordO] using hWl x hgl
    have hwinv : isWordO (prevAt po r) = isWordO pr.1
        ∨ (isWordO (prevAt po r) = false ∧ isWordO pr.2.head? = false) := by
      cases hpw : isWordO pr.1
      · exact Or.inl (by rw [hpo2])
      · exact Or.inr ⟨hpo2, hq2 pv s2 pr (mem_of_head_some hme) hpw⟩
    obtain ⟨u0, hu0, hpa0, _⟩ := matchEnds_sound2 q pv s2 pr (mem_of_head_some hme)
    have hns2 : NoBPos C lo pr.1 pr.2 := by
      intro a3 t3 h3 hb3
      refine hns (u0 ++ a3) t3 (by rw [hu0, h3, List.append_assoc]) ?_
      rwa [prevAt_append, ← hpa0]
    rcases List.append_eq_append_iff.mp hat.symm with ⟨w, hrw, htw⟩ | ⟨w, haw, how⟩
    · cases w with
      | nil =>
        simp only [List.append_nil] at hrw
        simp only [List.nil_append] at htw
        subst hrw
        exact ih (prevAt po r) hwinv hns2 [] t
          (by rw [List.nil_append]; exact htw.symm) hbm
      | cons wh wt =>
        rw [htw] at hbm
        obtain ⟨_, k, hk1, hk2, _⟩ := hbm
        have hsuf : (wh :: wt) <:+ r := ⟨a, hrw.symm⟩
        obtain ⟨hrun1, hrun2⟩ := hrRun (wh :: wt) hsuf (by simp)
        rw [takeRun_append_lt o2 hrun2] at hk2
        omega
    · subst haw
      rw [prevAt_append] at hbm
      exact ih (prevAt po r) hwinv hns2 w t how hbm

theorem subRel_self_bPat {r : List Char} {C : Char → Bool} {lo : Nat}
    (hlo : 1 ≤ lo) (hrne : r ≠ [])
    (hCr : ∀ c ∈ r.head?, C c = false)
    (hWr : isWordO r.head? = false)
    (hWl : ∀ c ∈ r.getLast?, isWord c = false)
    (hrRun : ∀ rr, rr <:+ r → rr ≠ [] → takeRun C rr < lo ∧ takeRun C rr < rr.length) :
    ∀ {pv : Option Char} {s o : List Char}, SubRel (bPat C lo) r pv s o →
      ∀ po, (isWordO po = isWordO pv ∨ (isWordO po = false ∧ isWordO s.head? = false)) →
        NoBPos C lo po o := by
  intro pv s o h
  induction h with
  | nil =>
    intro po _ a t hat _
    obtain ⟨rfl, rfl⟩ : a = [] ∧ t = [] :=
      ⟨(List.append_eq_nil.mp hat.symm).1, (List.append_eq_nil.mp hat.symm).2⟩
    next hbm => exact not_bMatchAt_nil hlo hbm
  | copy pv c s2 o2 hnone hsub ih =>
    intro po hw a t hat hbm
    cases a with
    | nil =>
      simp only [List.nil_append] at hat
      subst hat
      obtain ⟨hbf, k, hk1, hk2, hkb⟩ := hbm
      have hbf2 : atBoundary pv (some c) = true := by
        rcases hw with hw1 | hw2
        · rw [atBoundary, ← hw1]
          exact hbf
        · exfalso
          have hbf3 : (isWordO po != isWordO (some c)) = true := hbf
          have hcs : isWordO (some c) = false := hw2.2
          rw [hw2.1, hcs] at hbf3
          simp at hbf3
      obtain ⟨k2, hk2a, hk2b, hk2c⟩ :=
        subRel_bound_pullback hrne hCr hWr (bPat_hq1 hlo)
          (SubRel.copy pv c s2 o2 hnone hsub) k (by omega) hk2 hkb
      have hbm2 : BMatchAt C lo pv (c :: s2) := ⟨hbf2, k2, by omega, hk2b, hk2c⟩
      exact (matchEnds_bPat_ne hlo pv (c :: s2)).mpr hbm2 hnone
    | cons d a2 =>
      rw [List.cons_append] at hat
      injection hat with h1 h2
      subst h1
      exact ih (some c) (Or.inl rfl) a2 t h2 hbm
  | repl pv s2 o2 pr hme hlt hsub ih =>
    intro po hw a t hat hbm
    have hpo2 : isWordO (prevAt po r) = false := by
      rw [prevAt_eq_getLast hrne]
      cases hgl : r.getLast? with
      | none => rfl
      | some x => simpa [isWordO] using hWl x hgl
    have hwinv : isWordO (prevAt po r) = isWordO pr.1
        ∨ (isWordO (prevAt po r) = false ∧ isWordO pr.2.head? = false) := by
      cases hpw : isWordO pr.1
      · exact Or.inl (by rw [hpo2])
      · exact Or.inr ⟨hpo2, bPat_hq2 pv s2 pr (mem_of_head_some hme) hpw⟩
    rcases List.append_eq_append_iff.mp hat.symm with ⟨w, hrw, htw⟩ | ⟨w, haw, how⟩
    · cases w with
      | nil =>
        simp only [List.append_nil] at hrw
        simp only [List.nil_append] at htw
        subst hrw
        exact ih (prevAt po r) hwinv [] t
          (by rw [List.nil_append]; exact htw.symm) hbm
      | cons wh wt =>
        rw [htw] at hbm
        obtain ⟨_, k, hk1, hk2, _⟩ := hbm
        have hsuf : (wh :: wt) <:+ r := ⟨a, hrw.symm⟩
        obtain ⟨hrun1, hrun2⟩ := hrRun (wh :: wt) hsuf (by simp)
        rw [takeRun_append_lt o2 hrun2] at hk2
        omega
    · subst haw
      rw [prevAt_append] at hbm
      exact ih (prevAt po r) hwinv w t how hbm

theorem seq_wb_hq1 {X : Pat} :
    ∀ (pv : Option Char) (s : List Char), matchEnds (.seq .wb X) pv s ≠ [] →
      isWordO pv = true → isWordO s.head? = false := by
  intro pv s hne hw
  obtain ⟨pr, hpr⟩ := List.exists_mem_of_ne_nil _ hne
  rw [seqR_mem] at hpr
  obtain ⟨w1, hw1, _⟩ := hpr
  rw [mem_matchEnds_wb] at hw1
  have hb := hw1.1
  rw [atBoundary, hw] at hb
  cases h2 : isWordO s.head?
  · rfl
  · rw [h2] at hb
    simp at hb

theorem wb_lit_hq2 :
    ∀ (pv : Option Char) (s : List Char) (pr : Option Char × List Char),
      pr ∈ matchEnds (.seq .wb (.lit [])) pv s →
      isWordO pr.1 = true → isWordO pr.2.head? = false := by
  intro pv s pr hpr hw
  rw [seqR_mem] at hpr
  obtain ⟨w1, hw1, hl⟩ := hpr
  rw [mem_matchEnds_wb] at hw1
  obtain ⟨hb, rfl⟩ := hw1
  rw [mem_matchEnds_lit] at hl
  obtain ⟨_, rfl⟩ := hl
  simp only [List.isEmpty_nil, if_pos, List.length_nil, List.drop_zero] at hw ⊢
  rw [atBoundary, hw] at hb
  cases h2 : isWordO s.head?
  · rfl
  · rw [h2] at hb
    simp at hb

theorem seq_tail_hq2 {a b : Pat}
    (h : ∀ (pv : Option Char) (s : List Char) (pr : Option Char × List Char),
      pr ∈ matchEnds b pv s → isWordO pr.1 = true → isWordO pr.2.head? = false) :
    ∀ (pv : Option Char) (s : List Char) (pr : Option Char × List Char),
      pr ∈ matchEnds (.seq a b) pv s → isWordO pr.1 = true → isWordO pr.2.head? = false := by
  intro pv s pr hpr hw
  rw [seqR_mem] at hpr
  obtain ⟨w, _, hprb⟩ := hpr
  exact h w.1 w.2 pr hprb hw

theorem cls_hq1 {P : Char → Bool} {lo : Nat} {lazy : Bool}
    (hP : ∀ c, P c = true → isWord c = false) (hlo : 1 ≤ lo) :
    ∀ (pv : Option Char) (s : List Char), matchEnds (.cls P lo none lazy) pv s ≠ [] →
      isWordO pv = true → isWordO s.head? = false := by
  intro pv s hne _
  obtain ⟨pr, hpr⟩ := List.exists_mem_of_ne_nil _ hne
  rw [mem_matchEnds_cls_none] at hpr
  obtain ⟨k, hk1, hk2, _⟩ := hpr
  obtain ⟨c, hc1, hc2⟩ := takeRun_head_pos (by omega : 1 ≤ takeRun P s)
  rw [hc1]
  simpa [isWordO] using hP c hc2

theorem cls_hq2 {P : Char → Bool} {lo : Nat} {lazy : Bool}
    (hP : ∀ c, P c = true → isWord c = false) (hlo : 1 ≤ lo) :
    ∀ (pv : Option Char) (s : List Char) (pr : Option Char × List Char),
      pr ∈ matchEnds (.cls P lo none lazy) pv s →
      isWordO pr.1 = true → isWordO pr.2.head? = false := by
  intro pv s pr hpr hw
  rw [mem_matchEnds_cls_none] at hpr
  obtain ⟨k, hk1, hk2, rfl⟩ := hpr
  exfalso
  rw [lastConsumed, if_neg (by omega)] at hw
  cases hg : (s[k - 1]? : Option Char) with
  | none =>
    rw [hg] at hw
    simp [isWordO] at hw
  | some c =>
    have hkl : k - 1 < takeRun P s := by omega
    have hg2 : (s.take (takeRun P s))[k - 1]? = some c := by
      rw [List.getElem?_take_of_lt hkl]
      exact hg
    have hmem : c ∈ s.take (takeRun P s) := List.getElem?_mem hg2
    have hPc := takeRun_mem P s c hmem
    rw [hg] at hw
    simp only [isWordO] at hw
    rw [hP c hPc] at hw
    simp at hw

theorem hasMatchAux_true_iff {pat : Pat} (hmin : 1 ≤ minConsume pat)
    (pv : Option Char) (s : List Char) :
    hasMatchAux pat pv s = true ↔
      ∃ a t, s = a ++ t ∧ matchEnds pat (prevAt pv a) t ≠ [] := by
  constructor
  · intro htrue
    by_contra hno
    push_neg at hno
    have hf : hasMatchAux pat pv s = false :=
      (hasMatchAux_false_iff_pos hmin pv s).mpr hno
    rw [hf] at htrue
    exact absurd htrue (by simp)
  · rintro ⟨a, t, hat, hne⟩
    cases hh : hasMatchAux pat pv s with
    | true => rfl
    | false =>
      exact absurd ((hasMatchAux_false_iff_pos hmin pv s).mp hh a t hat) hne

theorem bmatch_congr_prev {C : Char → Bool} {lo : Nat} {pv pv2 : Option Char}
    {t : List Char} (h : isWordO pv = isWordO pv2) :
    BMatchAt C lo pv t → BMatchAt C lo pv2 t := by
  rintro ⟨hb, k, hk1, hk2, hkb⟩
  refine ⟨?_, k, hk1, hk2, hkb⟩
  rw [atBoundary, ← h]
  exact hb

theorem bmatch_mono_class {C1 C2 : Char → Bool} {lo : Nat} {pv : Option Char}
    {t : List Char} (h : ∀ c, C1 c = true → C2 c = true) :
    BMatchAt C1 lo pv t → BMatchAt C2 lo pv t := by
  rintro ⟨hb, k, hk1, hk2, hkb⟩
  exact ⟨hb, k, hk1, le_trans hk2 (takeRun_mono_class h t), hkb⟩

theorem bmatch_ext_right {C : Char → Bool} {lo : Nat} {pv : Option Char}
    {t ss : List Char} (hlo : 1 ≤ lo)
    (hss : ∀ c, ss.head? = some c → C c = false ∧ isWord c = false) :
    BMatchAt C lo pv t → BMatchAt C lo pv (t ++ ss) := by
  rintro ⟨hb, k, hk1, hk2, hkb⟩
  have hkt : k ≤ t.length := le_trans hk2 (takeRun_le_length C t)
  have htne : t ≠ [] := by
    intro h0
    subst h0
    rw [takeRun] at hk2
    omega
  obtain ⟨th, tt, rfl⟩ : ∃ th tt, t = th :: tt := by
    cases t with
    | nil => exact absurd rfl htne
    | cons th tt => exact ⟨th, tt, rfl⟩
  refine ⟨?_, k, hk1, le_trans hk2 (takeRun_le_append C _ ss), ?_⟩
  · exact hb
  · have hgl : ((th :: tt ++ ss) : List Char)[k - 1]? = (th :: tt)[k - 1]? := by
      rw [List.getElem?_append]
      rw [if_pos (by simp at hkt ⊢; omega)]
    rw [hgl]
    rcases Nat.lt_or_ge k (th :: tt).length with hklt | hkge
    · rw [List.getElem?_append, if_pos hklt]
      exact hkb
    · have hke : k = (th :: tt).length := by omega
      have h1 : ((th :: tt) : List Char)[k]? = none := List.getElem?_eq_none (by omega)
      have h2 : ((th :: tt ++ ss) : List Char)[k]? = ss[0]? := by
        rw [List.getElem?_append, if_neg (by omega), hke]
        simp
      rw [h2]
      rw [h1] at hkb
      have hw0 : isWordO (ss[0]? : Option Char) = false := by
        cases hs0 : (ss[0]? : Option Char) with
        | none => rfl
        | some c =>
          have := hss c (by rw [← hs0]; cases ss <;> simp_all)
          simpa [isWordO] using this.2
      rw [atBoundary, hw0]
      exact hkb

theorem prevAt_mem (pv : Option Char) (l : List Char) :
    prevAt pv l = pv ∨ ∃ c ∈ l, prevAt pv l = some c := by
  induction l generalizing pv with
  | nil => exact Or.inl rfl
  | cons c cs ih =>
    rcases ih (some c) with h | ⟨d, hd, h⟩
    · exact Or.inr ⟨c, by simp, h⟩
    · exact Or.inr ⟨d, by simp [hd], h⟩

theorem pyStrip_decomp (s : List Char) :
    ∃ sp ss, s = sp ++ pyStrip s ++ ss
      ∧ (∀ c ∈ sp, isPySpace c = true) ∧ (∀ c ∈ ss, isPySpace c = true) := by
  refine ⟨s.takeWhile isPySpace,
    ((s.dropWhile isPySpace).reverse.takeWhile isPySpace).reverse, ?_, ?_, ?_⟩
  · conv_lhs => rw [← List.takeWhile_append_dropWhile isPySpace s]
    rw [List.append_assoc]
    congr 1
    have hrev : (s.dropWhile isPySpace).reverse =
        ((s.dropWhile isPySpace).reverse.takeWhile isPySpace)
          ++ ((s.dropWhile isPySpace).reverse.dropWhile isPySpace) :=
      (List.takeWhile_append_dropWhile isPySpace (s.dropWhile isPySpace).reverse).symm
    have h2 := congrArg List.reverse hrev
    rw [List.reverse_reverse, List.reverse_append] at h2
    exact h2
  · intro c hc
    exact List.mem_takeWhile_imp hc
  · intro c hc
    rw [List.mem_reverse] at hc
    exact List.mem_takeWhile_imp hc

theorem noBPos_strip {C : Char → Bool} {lo : Nat} (hlo : 1 ≤ lo)
    (hCsp : ∀ c, isPySpace c = true → C c = false ∧ isWord c = false)
    {s : List Char} (h : NoBPos C lo none s) : NoBPos C lo none (pyStrip s) := by
  obtain ⟨sp, ss, hdecomp, hsp, hss⟩ := pyStrip_decomp s
  intro a t hat hbm
  have hbm2 : BMatchAt C lo (prevAt none a) (t ++ ss) :=
    bmatch_ext_right hlo
      (fun c hc => hCsp c (hss c (by
        cases ss with
        | nil => simp at hc
        | cons d w =>
          simp at hc
          subst hc
          simp))) hbm
  have hbm3 : BMatchAt C lo (prevAt none (sp ++ a)) (t ++ ss) := by
    cases a with
    | nil =>
      refine bmatch_congr_prev ?_ hbm2
      rw [List.append_nil]
      rcases prevAt_mem none sp with hp | ⟨c, hc, hp⟩
      · rw [hp]
        rfl
      · rw [hp]
        have hcw := (hCsp c (hsp c hc)).2
        simp [isWordO, hcw, prevAt]
    | cons d a2 =>
      rw [prevAt_append]
      refine bmatch_congr_prev ?_ hbm2
      rw [prevAt_congr (by simp : d :: a2 ≠ ([] : List Char)) (prevAt none sp) none]
  exact h (sp ++ a) (t ++ ss)
    (by rw [hdecomp, hat]; simp [List.append_assoc]) hbm3

theorem isDigit_isWord {c : Char} (h : isDigit c = true) : isWord c = true := by
  simp [isWord, h]

theorem isSign_not_word {c : Char} (h : isSign c = true) : isWord c = false := by
  simp [isSign] at h
  rcases h with rfl | rfl <;> decide

theorem head_eq_get0 (l : List Char) : l.head? = l[0]? := by
  cases l <;> simp

theorem run_getElem {P : Char → Bool} {s : List Char} {i : Nat}
    (h : i < takeRun P s) : ∃ c, s[i]? = some c ∧ P c = true := by
  have hl : i < s.length := lt_of_lt_of_le h (takeRun_le_length P s)
  refine ⟨s[i], List.getElem?_eq_getElem hl, ?_⟩
  have hg2 : (s.take (takeRun P s))[i]? = some s[i] := by
    rw [List.getElem?_take_of_lt h]
    exact List.getElem?_eq_getElem hl
  exact takeRun_mem P s _ (List.getElem?_mem hg2)

theorem float_match_dec {pv : Option Char} {t : List Char}
    (hne : matchEnds RX_FLOAT pv t ≠ []) :
    ∃ sg t1, t = sg ++ t1 ∧ BMatchAt isDigit 1 (prevAt pv sg) t1 := by
  obtain ⟨pr, hpr⟩ := List.exists_mem_of_ne_nil _ hne
  have hpr2 : pr ∈ matchEnds (Pat.seq Pat.wb (Pat.seq (Pat.cls isSign 0 (some 1) false)
      (Pat.seq (Pat.cls isDigit 1 none false) (Pat.seq (Pat.lit ['.'])
      (Pat.seq (Pat.cls isDigit 1 none false)
        (Pat.seq (popt (pseq [Pat.cls (fun c => c = 'e' || c = 'E') 1 (some 1) false,
          Pat.cls isSign 0 (some 1) false, Pat.cls isDigit 1 none false]))
        (Pat.seq Pat.wb (Pat.lit [])))))))) pv t := hpr
  rw [seqR_mem] at hpr2
  obtain ⟨w1, hw1, h1⟩ := hpr2
  rw [mem_matchEnds_wb] at hw1
  obtain ⟨hbd, rfl⟩ := hw1
  dsimp only at h1
  rw [seqR_mem] at h1
  obtain ⟨w2, hw2, h2⟩ := h1
  rw [mem_matchEnds_cls_some] at hw2
  obtain ⟨k0, hk00, hk01, rfl⟩ := hw2
  dsimp only at h2
  rw [seqR_mem] at h2
  obtain ⟨w3, hw3, h3⟩ := h2
  rw [mem_matchEnds_cls_none] at hw3
  obtain ⟨k1, hk10, hk11, rfl⟩ := hw3
  dsimp only at h3
  rw [seqR_mem] at h3
  obtain ⟨w4, hw4, _⟩ := h3
  rw [mem_matchEnds_lit] at hw4
  have hpre := hw4.1
  have hk0run : k0 ≤ takeRun isSign t := le_trans hk01 (Nat.min_le_left _ _)
  have hk0len : k0 ≤ t.length := le_trans hk0run (takeRun_le_length _ _)
  refine ⟨t.take k0, t.drop k0, (List.take_append_drop k0 t).symm, ?_⟩
  rw [prevAt_take hk0len]
  obtain ⟨ch, hch1, hch2⟩ := takeRun_head_pos (show 1 ≤ takeRun isDigit (t.drop k0) by omega)
  refine ⟨?_, k1, hk10, hk11, ?_⟩
  · rcases Nat.eq_zero_or_pos k0 with rfl | hk0pos
    · rw [lastConsumed, if_pos rfl]
      exact hbd
    · have hk0e : k0 = 1 := by
        have := le_trans hk01 (Nat.min_le_right _ _)
        omega
      subst hk0e
      rw [lastConsumed, if_neg (by omega)]
      obtain ⟨d, hd1, hd2⟩ := takeRun_head_pos (show 1 ≤ takeRun isSign t by omega)
      rw [head_eq_get0] at hd1
      rw [show (1 : Nat) - 1 = 0 from rfl, hd1]
      rw [hch1]
      rw [atBoundary]
      simp only [isWordO]
      rw [isSign_not_word hd2, isDigit_isWord hch2]
      rfl
  · obtain ⟨c1, hc1, hc2⟩ := run_getElem (show k1 - 1 < takeRun isDigit (t.drop k0) by omega)
    rw [hc1]
    have hdot : ((t.drop k0).drop k1).head? = some ('.' : Char) := by
      obtain ⟨w, hw⟩ := List.isPrefixOf_iff_prefix.mp hpre
      rw [← hw]
      rfl
    rw [head_drop] at hdot
    rw [hdot]
    rw [atBoundary]
    simp only [isWordO]
    rw [isDigit_isWord hc2]
    rw [show isWord ('.' : Char) = false from by decide]
    rfl

theorem float_no_match {s : List Char} (h : NoBPos isDigit 1 none s) :
    hasMatchAux RX_FLOAT none s = false := by
  have hmin : 1 ≤ minConsume RX_FLOAT := by decide
  rw [hasMatchAux_false_iff_pos hmin]
  intro a t hat
  by_contra hne
  obtain ⟨sg, t1, ht, hb⟩ := float_match_dec hne
  exact h (a ++ sg) t1 (by rw [hat, ht, List.append_assoc])
    (by rw [prevAt_append]; exact hb)

theorem timestamp_from_date {o : List Char} (h : NoMatchAll RX_DATE o) :
    NoMatchAll RX_TIMESTAMP o := by
  intro t ht hm
  obtain ⟨u, v, huv, hp⟩ := hm
  have hp2 : Parses (.seq (dN 4) (.seq (.lit ['-']) (.seq (dN 2) (.seq (.lit ['-'])
      (.seq (dN 2) (.seq (.lit ['T']) (.seq (dN 2) (.seq (.lit [':'])
      (.seq (dN 2) (.seq (.lit [':']) (.seq (dN 2)
      (.seq (popt (.lit ['Z'])) (.lit []))))))))))))) u := hp
  cases hp2 with
  | seq a1 b1 u1 v1 hp1 hrest1 =>
  cases hrest1 with
  | seq a2 b2 u2 v2 hpl1 hrest2 =>
  cases hrest2 with
  | seq a3 b3 u3 v3 hp3 hrest3 =>
  cases hrest3 with
  | seq a4 b4 u4 v4 hpl2 hrest4 =>
  cases hrest4 with
  | seq a5 b5 u5 v5 hp5 hrest5 =>
  have hd : Parses RX_DATE (u1 ++ (u2 ++ (u3 ++ (u4 ++ (u5 ++ []))))) := by
    show Parses (.seq (dN 4) (.seq (.lit ['-']) (.seq (dN 2) (.seq (.lit ['-'])
      (.seq (dN 2) (.lit [])))))) _
    exact Parses.seq _ _ _ _ hp1 (Parses.seq _ _ _ _ hpl1 (Parses.seq _ _ _ _ hp3
      (Parses.seq _ _ _ _ hpl2 (Parses.seq _ _ _ _ hp5 (Parses.lit [])))))
  refine h t ht ⟨u1 ++ (u2 ++ (u3 ++ (u4 ++ (u5 ++ [])))), v5 ++ v, ?_, hd⟩
  rw [huv]
  simp [List.append_assoc]

theorem noMatchAll_hasMatch {p : Pat} (hwb : wbFree p = true) (hmin : 1 ≤ minConsume p)
    {s : List Char} (h : NoMatchAll p s) : hasMatch p s = false :=
  (hasMatchAux_eq_false_iff hwb hmin none s).mpr h

theorem getLast_range {a n : Nat} (h : 1 ≤ n) :
    (List.range' a n).getLast? = some (a + n - 1) := by
  induction n generalizing a with
  | zero => omega
  | succ m ih =>
    rcases Nat.eq_zero_or_pos m with rfl | hm
    · simp [List.range']
    · rw [List.range'_succ, List.getLast?_cons, ih hm]
      simp only [Option.getD_some]
      congr 1
      omega

theorem repCounts_greedy_head {lo top : Nat} (h : lo ≤ top) :
    (repCounts lo top false).head? = some top := by
  rw [repCounts]
  rw [if_neg (by simp : ¬(false = true))]
  rw [List.head?_reverse]
  rw [getLast_range (by omega)]
  congr 1
  omega

theorem matchEnds_cls_none_eq_nil_iff {P : Char → Bool} {lo : Nat} {lz : Bool}
    {pv : Option Char} {s : List Char} :
    matchEnds (.cls P lo none lz) pv s = [] ↔ takeRun P s < lo := by
  simp only [matchEnds]
  split
  · next h => simp [h]
  · next h =>
    simp only [List.map_eq_nil_iff]
    constructor
    · intro h2
      exact absurd (h2 ▸ mem_repCounts.mpr ⟨le_rfl, by omega⟩) (List.not_mem_nil lo)
    · intro h2
      omega

theorem matchEnds_cls_greedy_head {P : Char → Bool} {lo : Nat}
    {pv : Option Char} {s : List Char} (h : lo ≤ takeRun P s) :
    (matchEnds (.cls P lo none false) pv s).head? =
      some (lastConsumed pv s (takeRun P s), s.drop (takeRun P s)) := by
  simp only [matchEnds]
  rw [if_neg (by omega)]
  rw [List.head?_map, repCounts_greedy_head h]
  rfl

theorem subRel_ws_noTwo :
    ∀ {pv : Option Char} {s o : List Char}, SubRel RX_WS [' '] pv s o →
      ∀ (b : Bool),
        (b = false ∨ (∀ c ∈ s.head?, isSpaceTab c = false)) →
        noTwo isSpaceTab b o = true := by
  intro pv s o h
  induction h with
  | nil =>
    intro b _
    rfl
  | copy pv c s2 o2 hnone hsub ih =>
    intro b hinv
    rw [noTwo, Bool.and_eq_true]
    have hlt : takeRun isSpaceTab (c :: s2) < 2 := by
      have : matchEnds (.cls isSpaceTab 2 none false) pv (c :: s2) = [] := hnone
      exact matchEnds_cls_none_eq_nil_iff.mp this
    constructor
    · rcases hinv with rfl | h2
      · simp
      · rw [h2 c rfl]
        simp
    · refine ih (isSpaceTab c) ?_
      cases hc : isSpaceTab c
      · exact Or.inl rfl
      · refine Or.inr ?_
        rw [takeRun, if_pos hc] at hlt
        intro d hd
        cases s2 with
        | nil => simp at hd
        | cons e s3 =>
          simp at hd
          subst hd
          by_contra he
          rw [Bool.not_eq_false] at he
          rw [takeRun, if_pos he] at hlt
          omega
  | repl pv s2 o2 pr hme hlt hsub ih =>
    intro b hinv
    have hne : matchEnds RX_WS pv s2 ≠ [] := by
      intro h0
      rw [h0] at hme
      simp at hme
    have hrun : 2 ≤ takeRun isSpaceTab s2 := by
      by_contra hr
      exact hne (matchEnds_cls_none_eq_nil_iff.mpr (by omega))
    have h2 : (matchEnds (.cls isSpaceTab 2 none false) pv s2).head? =
        some (lastConsumed pv s2 (takeRun isSpaceTab s2),
          s2.drop (takeRun isSpaceTab s2)) :=
      matchEnds_cls_greedy_head hrun
    have hme2 : (matchEnds (.cls isSpaceTab 2 none false) pv s2).head? = some pr := hme
    rw [h2] at hme2
    injection hme2 with hme3
    show noTwo isSpaceTab b (' ' :: o2) = true
    rw [noTwo, Bool.and_eq_true]
    constructor
    · rcases hinv with rfl | hh
      · simp
      · exfalso
        obtain ⟨c0, hc0, hB⟩ := takeRun_head_pos (show 1 ≤ takeRun isSpaceTab s2 by omega)
        exact absurd (hh c0 hc0) (by rw [hB]; simp)
    · refine ih true (Or.inr ?_)
      intro c hc
      rw [← hme3] at hc
      dsimp only at hc
      rw [head_drop] at hc
      exact takeRun_getElem_false s2 c hc

theorem noTwo_pair {B : Char → Bool} :
    ∀ (s : List Char) (b : Bool), noTwo B b s = true →
      ∀ a c d t2, s = a ++ c :: d :: t2 → ¬(B c = true ∧ B d = true) := by
  intro s
  induction s with
  | nil =>
    intro b _ a c d t2 h
    have := congrArg List.length h
    simp at this
    omega
  | cons x s2 ih =>
    intro b hno a c d t2 h
    rw [noTwo, Bool.and_eq_true] at hno
    cases a with
    | nil =>
      rw [List.nil_append] at h
      injection h with h1 h2
      subst h1
      subst h2
      rintro ⟨hc, hd⟩
      have hfirst := hno.2
      rw [noTwo, Bool.and_eq_true] at hfirst
      have := hfirst.1
      rw [hc, hd] at this
      simp at this
    | cons y a2 =>
      rw [List.cons_append] at h
      injection h with h1 h2
      subst h1
      exact ih (B x) hno.2 a2 c d t2 h2

theorem noTwo_noMatchAll {s : List Char} (h : noTwo isSpaceTab false s = true) :
    NoMatchAll RX_WS s := by
  intro t ht hm
  obtain ⟨u, v, huv, hp⟩ := hm
  have hp2 : Parses (.cls isSpaceTab 2 none false) u := hp
  cases hp2 with
  | cls p2 lo2 hi2 lz2 u2 hlen hhi hall =>
    obtain ⟨c, d, u3, rfl⟩ : ∃ c d u3, u = c :: d :: u3 := by
      cases u with
      | nil => simp at hlen
      | cons c w =>
        cases w with
        | nil => simp at hlen
        | cons d u3 => exact ⟨c, d, u3, rfl⟩
    obtain ⟨a, ha⟩ := ht
    exact noTwo_pair s false h a c d (u3 ++ v)
      (by rw [← ha, huv]; simp)
      ⟨hall c (by simp), hall d (by simp)⟩

theorem pf_first_cls {P : Char → Bool} {lo : Nat} {hi : Option Nat} {lz : Bool} {b : Pat}
    (hlo : 1 ≤ lo) :
    ∀ u, Parses (.seq (.cls P lo hi lz) b) u → ∀ h ∈ u.head?, P h = true := by
  intro u hp h hh
  cases hp with
  | seq a1 b1 u1 v1 hp1 hp2 =>
    cases hp1 with
    | cls p2 lo2 hi2 lz2 u2 hlen hhi hall =>
      cases u1 with
      | nil => simp at hlen; omega
      | cons c w =>
        rw [List.cons_append] at hh
        simp at hh
        subst hh
        exact hall c (by simp)

theorem pf_first_lit {cs : List Char} {b : Pat} (hne : cs ≠ []) :
    ∀ u, Parses (.seq (.lit cs) b) u → ∀ h ∈ u.head?, cs.head? = some h := by
  intro u hp h hh
  cases hp with
  | seq a1 b1 u1 v1 hp1 hp2 =>
    cases hp1 with
    | lit cs2 =>
      cases cs with
      | nil => exact absurd rfl hne
      | cons c w =>
        rw [List.cons_append] at hh
        simp at hh
        subst hh
        rfl

theorem pf_first_cls_bare {P : Char → Bool} {lo : Nat} {hi : Option Nat} {lz : Bool}
    (hlo : 1 ≤ lo) :
    ∀ u, Parses (.cls P lo hi lz) u → ∀ h ∈ u.head?, P h = true := by
  intro u hp h hh
  cases hp with
  | cls p2 lo2 hi2 lz2 u2 hlen hhi hall =>
    cases u with
    | nil => simp at hh
    | cons c w =>
      simp at hh
      subst hh
      exact hall c (by simp)

theorem dropWhile_head_false {p : Char → Bool} :
    ∀ (l : List Char) (c : Char), (l.dropWhile p).head? = some c → p c = false := by
  intro l
  induction l with
  | nil => simp
  | cons x t ih =>
    intro c hc
    rw [List.dropWhile_cons] at hc
    split at hc
    · exact ih c hc
    · next h =>
      simp at hc
      subst hc
      simpa using h

theorem dropWhile_eq_self {p : Char → Bool} {l : List Char}
    (h : ∀ c ∈ l.head?, p c = false) : l.dropWhile p = l := by
  cases l with
  | nil => rfl
  | cons c t =>
    rw [List.dropWhile_cons, if_neg]
    rw [h c rfl]
    simp

theorem prefix_head {x l : List Char} (h : x <+: l) (hne : x ≠ []) :
    x.head? = l.head? := by
  cases x with
  | nil => exact absurd rfl hne
  | cons c w =>
    obtain ⟨t, ht⟩ := h
    rw [← ht]
    rfl

theorem pyStrip_idem (x : List Char) : pyStrip (pyStrip x) = pyStrip x := by
  have hzx : pyStrip x <+: x.dropWhile isPySpace := by
    have hsuf : (x.dropWhile isPySpace).reverse.dropWhile isPySpace <:+
        (x.dropWhile isPySpace).reverse := List.dropWhile_suffix isPySpace
    obtain ⟨w, hw⟩ := hsuf
    refine ⟨w.reverse, ?_⟩
    rw [pyStrip]
    rw [← List.reverse_append, hw, List.reverse_reverse]
  have hstep1 : (pyStrip x).dropWhile isPySpace = pyStrip x := by
    apply dropWhile_eq_self
    intro c hc
    have hne : pyStrip x ≠ [] := by
      intro h0
      rw [h0] at hc
      simp at hc
    rw [prefix_head hzx hne] at hc
    exact dropWhile_head_false x c hc
  show (((pyStrip x).dropWhile isPySpace).reverse.dropWhile isPySpace).reverse = pyStrip x
  rw [hstep1]
  rw [show (pyStrip x).reverse = (x.dropWhile isPySpace).reverse.dropWhile isPySpace from by
    rw [pyStrip, List.reverse_reverse]]
  rw [dropWhile_eq_self (fun c hc => dropWhile_head_false (x.dropWhile isPySpace).reverse c hc)]
  rw [pyStrip]

theorem tails_check {C : Char → Bool} {lo : Nat} {r : List Char}
    (h : ∀ rr ∈ r.tails, rr = [] ∨ (takeRun C rr < lo ∧ takeRun C rr < rr.length)) :
    ∀ rr, rr <:+ r → rr ≠ [] → takeRun C rr < lo ∧ takeRun C rr < rr.length := by
  intro rr hs hne
  rcases h rr ((List.mem_tails _ _).mpr hs) with h1 | h2
  · exact absurd h1 hne
  · exact h2

/-- Claim C4 (amended): the float rule of `clean_line` is dead code: for
every input line, the "<FLOAT>" substitution is the identity on the
string it receives (the output of the preceding `\b\d+\b` stage),
because the bare-integer rule has already replaced every
boundary-delimited digit run and any float match starts with one; in
particular "3.14" becomes "<DEC>.<DEC>", never "<FLOAT>". -/
theorem float_rule_amended (s : List Char) :
    pySub RX_FLOAT (("<FLOAT>").data) (pySub RX_DEC (("<DEC>").data) s)
      = pySub RX_DEC (("<DEC>").data) s
    ∧ clean_line ("3.14") = ("<DEC>.<DEC>") := by
  refine ⟨?_, by decide⟩
  have hC : NoBPos isDigit 1 none (pySub RX_DEC (("<DEC>").data) s) :=
    subRel_self_bPat (by omega) (by decide) (by decide) (by decide) (by decide)
      (tails_check (by decide)) (pySub_subRel (by decide) (("<DEC>").data) s) none (Or.inl rfl)
  exact pySub_id (float_no_match hC)

/-- Claim C5 (amended): the hex rule of `clean_line` is dead code: its
character class is contained in the "<ID>" rule's class with the same
lower bound 8, and the "<ID>" rule runs first, so for every input line
the "<HEX>" substitution is the identity on the string it receives (the
output of the "<ID>" stage); a long hex/alphanumeric identifier becomes
"<ID>" and the 7-character pure-hex line "deadbee" is left unchanged. -/
theorem hex_rule_amended (s : List Char) :
    pySub RX_HEX (("<HEX>").data) (pySub RX_ID (("<ID>").data) s)
      = pySub RX_ID (("<ID>").data) s
    ∧ clean_line ("9f8e7d6c5b4a3210") = ("<ID>")
    ∧ clean_line ("deadbee") = ("deadbee") := by
  refine ⟨?_, by decide, by decide⟩
  have hI : NoBPos isIdChar 8 none (pySub RX_ID (("<ID>").data) s) :=
    subRel_self_bPat (by omega) (by decide) (by decide) (by decide) (by decide)
      (tails_check (by decide)) (pySub_subRel (by decide) (("<ID>").data) s) none (Or.inl rfl)
  have hH : NoBPos isHex 8 none (pySub RX_ID (("<ID>").data) s) := fun a t hat hb =>
    hI a t hat (bmatch_mono_class (fun c hc => by simp [isIdChar, hc]) hb)
  exact pySub_id ((hasMatchAux_bPat_false_iff (by omega) none _).mpr hH)

theorem patChars_DATE : patChars (fun c => isDigit c || decide (c = '-')) RX_DATE := by
  show patChars _ (.seq (dN 4) (.seq (.lit ['-']) (.seq (dN 2) (.seq (.lit ['-'])
    (.seq (dN 2) (.lit []))))))
  exact ⟨fun c h => by simp [h], by intro c hc; simp at hc; subst hc; decide, fun c h => by simp [h], by intro c hc; simp at hc; subst hc; decide,
    fun c h => by simp [h], by intro c hc; simp at hc⟩

theorem pf_DATE : ∀ u, Parses RX_DATE u → ∀ h ∈ u.head?, isDigit h = true := by
  intro u hp
  exact pf_first_cls (by omega) u hp

theorem patChars_TIME : patChars (fun c => isDigit c || decide (c = ':')) RX_TIME := by
  show patChars _ (.seq (dN 2) (.seq (.lit [':']) (.seq (dN 2) (.seq (.lit [':'])
    (.seq (dN 2) (.lit []))))))
  exact ⟨fun c h => by simp [h], by intro c hc; simp at hc; subst hc; decide, fun c h => by simp [h], by intro c hc; simp at hc; subst hc; decide,
    fun c h => by simp [h], by intro c hc; simp at hc⟩

theorem pf_TIME : ∀ u, Parses RX_TIME u → ∀ h ∈ u.head?, isDigit h = true := by
  intro u hp
  exact pf_first_cls (by omega) u hp

theorem patChars_PATHU : patChars isUnixPathChar RX_PATH_UNIX := by
  show patChars _ (.seq (.lit ['/']) (.seq (.cls isUnixPathChar 1 none false) (.lit [])))
  exact ⟨by intro c hc; simp at hc; subst hc; decide, fun c h => h, by intro c hc; simp at hc⟩

theorem pf_PATHU : ∀ u, Parses RX_PATH_UNIX u → ∀ h ∈ u.head?, decide (h = '/') = true := by
  intro u hp h hh
  have h2 := pf_first_lit (by simp) u hp h hh
  simp at h2
  subst h2
  decide

theorem patChars_PATHW : patChars isWinPathChar RX_PATH_WIN := by
  show patChars _ (.seq (.lit ['\\']) (.seq (.cls isWinPathChar 1 none false) (.lit [])))
  exact ⟨by intro c hc; simp at hc; subst hc; decide, fun c h => h, by intro c hc; simp at hc⟩

theorem pf_PATHW : ∀ u, Parses RX_PATH_WIN u → ∀ h ∈ u.head?, decide (h = '\\') = true := by
  intro u hp h hh
  have h2 := pf_first_lit (by simp) u hp h hh
  simp at h2
  subst h2
  decide

theorem patChars_SEPE : patChars (fun c => decide (c = '=')) RX_SEP_EQ :=
  fun c h => h

theorem pf_SEPE : ∀ u, Parses RX_SEP_EQ u → ∀ h ∈ u.head?, decide (h = '=') = true := by
  intro u hp
  exact pf_first_cls_bare (by omega) u hp

theorem patChars_SEPS : patChars (fun c => decide (c = '*')) RX_SEP_STAR :=
  fun c h => h

theorem pf_SEPS : ∀ u, Parses RX_SEP_STAR u → ∀ h ∈ u.head?, decide (h = '*') = true := by
  intro u hp
  exact pf_first_cls_bare (by omega) u hp

theorem patChars_SEPD : patChars (fun c => decide (c = '-')) RX_SEP_DASH :=
  fun c h => h

theorem pf_SEPD : ∀ u, Parses RX_SEP_DASH u → ∀ h ∈ u.head?, decide (h = '-') = true := by
  intro u hp
  exact pf_first_cls_bare (by omega) u hp

theorem isSpaceTab_not_word : ∀ c, isSpaceTab c = true → isWord c = false := by
  intro c h
  simp [isSpaceTab] at h
  rcases h with rfl | rfl <;> decide

theorem isEq_not_word : ∀ c, (decide (c = '=') : Bool) = true → isWord c = false := by
  intro c h
  simp at h
  subst h
  decide

theorem isStar_not_word : ∀ c, (decide (c = '*') : Bool) = true → isWord c = false := by
  intro c h
  simp at h
  subst h
  decide

theorem isDash_not_word : ∀ c, (decide (c = '-') : Bool) = true → isWord c = false := by
  intro c h
  simp at h
  subst h
  decide

theorem pySpace_facts_id : ∀ c, isPySpace c = true → isIdChar c = false ∧ isWord c = false := by
  intro c h
  simp [isPySpace] at h
  rcases h with ((((rfl | rfl) | rfl) | rfl) | rfl) | rfl <;> exact ⟨by decide, by decide⟩

theorem pySpace_facts_digit :
    ∀ c, isPySpace c = true → isDigit c = false ∧ isWord c = false := by
  intro c h
  simp [isPySpace] at h
  rcases h with ((((rfl | rfl) | rfl) | rfl) | rfl) | rfl <;> exact ⟨by decide, by decide⟩

theorem clean_line_chars_eq (line : List Char) :
    clean_line_chars line =
      pyStrip (pySub RX_WS ([' ']) (pySub RX_SEP_DASH (("<SEP>").data)
        (pySub RX_SEP_STAR (("<SEP>").data) (pySub RX_SEP_EQ (("<SEP>").data)
        (pySub RX_FLOAT (("<FLOAT>").data) (pySub RX_DEC (("<DEC>").data)
        (pySub RX_HEX (("<HEX>").data) (pySub RX_ID (("<ID>").data)
        (pySub RX_PATH_WIN (("<PATH>").data) (pySub RX_PATH_UNIX (("<PATH>").data)
        (pySub RX_TIME (("<TIME>").data) (pySub RX_DATE (("<DATE>").data)
        (pySub RX_TIMESTAMP (("<TIMESTAMP>").data) line))))))))))))) := rfl

theorem clean_line_chars_idem (line : List Char) :
    clean_line_chars (clean_line_chars line) = clean_line_chars line := by
  set s1 := pySub RX_TIMESTAMP (("<TIMESTAMP>").data) line with hs1
  set s2 := pySub RX_DATE (("<DATE>").data) s1 with hs2
  set s3 := pySub RX_TIME (("<TIME>").data) s2 with hs3
  set s4 := pySub RX_PATH_UNIX (("<PATH>").data) s3 with hs4
  set s5 := pySub RX_PATH_WIN (("<PATH>").data) s4 with hs5
  set s6 := pySub RX_ID (("<ID>").data) s5 with hs6
  set s7 := pySub RX_HEX (("<HEX>").data) s6 with hs7
  set s8 := pySub RX_DEC (("<DEC>").data) s7 with hs8
  set s9 := pySub RX_FLOAT (("<FLOAT>").data) s8 with hs9
  set s10 := pySub RX_SEP_EQ (("<SEP>").data) s9 with hs10
  set s11 := pySub RX_SEP_STAR (("<SEP>").data) s10 with hs11
  set s12 := pySub RX_SEP_DASH (("<SEP>").data) s11 with hs12
  set s13 := pySub RX_WS ([' ']) s12 with hs13
  set o := pyStrip s13 with ho
  have hoeq : clean_line_chars line = o := by
    rw [clean_line_chars_eq line, ho, hs13, hs12, hs11, hs10, hs9, hs8, hs7, hs6,
      hs5, hs4, hs3, hs2, hs1]
  rw [hoeq]
  have hD2 : NoMatchAll RX_DATE s2 := by
    rw [hs2]
    exact pySub_nomatch_self (by decide) (by decide) patChars_DATE pf_DATE
      (by decide) (by decide) (by decide) s1
  have hD3 : NoMatchAll RX_DATE s3 := by
    rw [hs3]
    exact pySub_nomatch_preserve (by decide) (by decide) (by decide) patChars_DATE
      pf_DATE (by decide) (by decide) (by decide) hD2
  have hD4 : NoMatchAll RX_DATE s4 := by
    rw [hs4]
    exact pySub_nomatch_preserve (by decide) (by decide) (by decide) patChars_DATE
      pf_DATE (by decide) (by decide) (by decide) hD3
  have hD5 : NoMatchAll RX_DATE s5 := by
    rw [hs5]
    exact pySub_nomatch_preserve (by decide) (by decide) (by decide) patChars_DATE
      pf_DATE (by decide) (by decide) (by decide) hD4
  have hD6 : NoMatchAll RX_DATE s6 := by
    rw [hs6]
    exact pySub_nomatch_preserve (by decide) (by decide) (by decide) patChars_DATE
      pf_DATE (by decide) (by decide) (by decide) hD5
  have hD7 : NoMatchAll RX_DATE s7 := by
    rw [hs7]
    exact pySub_nomatch_preserve (by decide) (by decide) (by decide) patChars_DATE
      pf_DATE (by decide) (by decide) (by decide) hD6
  have hD8 : NoMatchAll RX_DATE s8 := by
    rw [hs8]
    exact pySub_nomatch_preserve (by decide) (by decide) (by decide) patChars_DATE
      pf_DATE (by decide) (by decide) (by decide) hD7
  have hD9 : NoMatchAll RX_DATE s9 := by
    rw [hs9]
    exact pySub_nomatch_preserve (by decide) (by decide) (by decide) patChars_DATE
      pf_DATE (by decide) (by decide) (by decide) hD8
  have hD10 : NoMatchAll RX_DATE s10 := by
    rw [hs10]
    exact pySub_nomatch_preserve (by decide) (by decide) (by decide) patChars_DATE
      pf_DATE (by decide) (by decide) (by decide) hD9
  have hD11 : NoMatchAll RX_DATE s11 := by
    rw [hs11]
    exact pySub_nomatch_preserve (by decide) (by decide) (by decide) patChars_DATE
      pf_DATE (by decide) (by decide) (by decide) hD10
  have hD12 : NoMatchAll RX_DATE s12 := by
    rw [hs12]
    exact pySub_nomatch_preserve (by decide) (by decide) (by decide) patChars_DATE
      pf_DATE (by decide) (by decide) (by decide) hD11
  have hD13 : NoMatchAll RX_DATE s13 := by
    rw [hs13]
    exact pySub_nomatch_preserve (by decide) (by decide) (by decide) patChars_DATE
      pf_DATE (by decide) (by decide) (by decide) hD12
  have hDo : NoMatchAll RX_DATE o := by
    rw [ho]
    exact noMatchAll_within hD13 (pyStrip_within s13)
  have hDm : hasMatch RX_DATE o = false := noMatchAll_hasMatch (by decide) (by decide) hDo
  have hT3 : NoMatchAll RX_TIME s3 := by
    rw [hs3]
    exact pySub_nomatch_self (by decide) (by decide) patChars_TIME pf_TIME
      (by decide) (by decide) (by decide) s2
  have hT4 : NoMatchAll RX_TIME s4 := by
    rw [hs4]
    exact pySub_nomatch_preserve (by decide) (by decide) (by decide) patChars_TIME
      pf_TIME (by decide) (by decide) (by decide) hT3
  have hT5 : NoMatchAll RX_TIME s5 := by
    rw [hs5]
    exact pySub_nomatch_preserve (by decide) (by decide) (by decide) patChars_TIME
      pf_TIME (by decide) (by decide) (by decide) hT4
  have hT6 : NoMatchAll RX_TIME s6 := by
    rw [hs6]
    exact pySub_nomatch_preserve (by decide) (by decide) (by decide) patChars_TIME
      pf_TIME (by decide) (by decide) (by decide) hT5
  have hT7 : NoMatchAll RX_TIME s7 := by
    rw [hs7]
    exact pySub_nomatch_preserve (by decide) (by decide) (by decide) patChars_TIME
      pf_TIME (by decide) (by decide) (by decide) hT6
  have hT8 : NoMatchAll RX_TIME s8 := by
    rw [hs8]
    exact pySub_nomatch_preserve (by decide) (by decide) (by decide) patChars_TIME
      pf_TIME (by decide) (by decide) (by decide) hT7
  have hT9 : NoMatchAll RX_TIME s9 := by
    rw [hs9]
    exact pySub_nomatch_preserve (by decide) (by decide) (by decide) patChars_TIME
      pf_TIME (by decide) (by decide) (by decide) hT8
  have hT10 : NoMatchAll RX_TIME s10 := by
    rw [hs10]
    exact pySub_nomatch_preserve (by decide) (by decide) (by decide) patChars_TIME
      pf_TIME (by decide) (by decide) (by decide) hT9
  have hT11 : NoMatchAll RX_TIME s11 := by
    rw [hs11]
    exact pySub_nomatch_preserve (by decide) (by decide) (by decide) patChars_TIME
      pf_TIME (by decide) (by decide) (by decide) hT10
  have hT12 : NoMatchAll RX_TIME s12 := by
    rw [hs12]
    exact pySub_nomatch_preserve (by decide) (by decide) (by decide) patChars_TIME
      pf_TIME (by decide) (by decide) (by decide) hT11
  have hT13 : NoMatchAll RX_TIME s13 := by
    rw [hs13]
    exact pySub_nomatch_preserve (by decide) (by decide) (by decide) patChars_TIME
      pf_TIME (by decide) (by decide) (by decide) hT12
  have hTo : NoMatchAll RX_TIME o := by
    rw [ho]
    exact noMatchAll_within hT13 (pyStrip_within s13)
  have hTm : hasMatch RX_TIME o = false := noMatchAll_hasMatch (by decide) (by decide) hTo
  have hPU4 : NoMatchAll RX_PATH_UNIX s4 := by
    rw [hs4]
    exact pySub_nomatch_self (by decide) (by decide) patChars_PATHU pf_PATHU
      (by decide) (by decide) (by decide) s3
  have hPU5 : NoMatchAll RX_PATH_UNIX s5 := by
    rw [hs5]
    exact pySub_nomatch_preserve (by decide) (by decide) (by decide) patChars_PATHU
      pf_PATHU (by decide) (by decide) (by decide) hPU4
  have hPU6 : NoMatchAll RX_PATH_UNIX s6 := by
    rw [hs6]
    exact pySub_nomatch_preserve (by decide) (by decide) (by decide) patChars_PATHU
      pf_PATHU (by decide) (by decide) (by decide) hPU5
  have hPU7 : NoMatchAll RX_PATH_UNIX s7 := by
    rw [hs7]
    exact pySub_nomatch_preserve (by decide) (by decide) (by decide) patChars_PATHU
      pf_PATHU (by decide) (by decide) (by decide) hPU6
  have hPU8 : NoMatchAll RX_PATH_UNIX s8 := by
    rw [hs8]
    exact pySub_nomatch_preserve (by decide) (by decide) (by decide) patChars_PATHU
      pf_PATHU (by decide) (by decide) (by decide) hPU7
  have hPU9 : NoMatchAll RX_PATH_UNIX s9 := by
    rw [hs9]
    exact pySub_nomatch_preserve (by decide) (by decide) (by decide) patChars_PATHU
      pf_PATHU (by decide) (by decide) (by decide) hPU8
  have hPU10 : NoMatchAll RX_PATH_UNIX s10 := by
    rw [hs10]
    exact pySub_nomatch_preserve (by decide) (by decide) (by decide) patChars_PATHU
      pf_PATHU (by decide) (by decide) (by decide) hPU9
  have hPU11 : NoMatchAll RX_PATH_UNIX s11 := by
    rw [hs11]
    exact pySub_nomatch_preserve (by decide) (by decide) (by decide) patChars_PATHU
      pf_PATHU (by decide) (by decide) (by decide) hPU10
  have hPU12 : NoMatchAll RX_PATH_UNIX s12 := by
    rw [hs12]
    exact pySub_nomatch_preserve (by decide) (by decide) (by decide) patChars_PATHU
      pf_PATHU (by decide) (by decide) (by decide) hPU11
  have hPU13 : NoMatchAll RX_PATH_UNIX s13 := by
    rw [hs13]
    exact pySub_nomatch_preserve (by decide) (by decide) (by decide) patChars_PATHU
      pf_PATHU (by decide) (by decide) (by decide) hPU12
  have hPUo : NoMatchAll RX_PATH_UNIX o := by
    rw [ho]
    exact noMatchAll_within hPU13 (pyStrip_within s13)
  have hPUm : hasMatch RX_PATH_UNIX o = false := noMatchAll_hasMatch (by decide) (by decide) hPUo
  have hPW5 : NoMatchAll RX_PATH_WIN s5 := by
    rw [hs5]
    exact pySub_nomatch_self (by decide) (by decide) patChars_PATHW pf_PATHW
      (by decide) (by decide) (by decide) s4
  have hPW6 : NoMatchAll RX_PATH_WIN s6 := by
    rw [hs6]
    exact pySub_nomatch_preserve (by decide) (by decide) (by decide) patChars_PATHW
      pf_PATHW (by decide) (by decide) (by decide) hPW5
  have hPW7 : NoMatchAll RX_PATH_WIN s7 := by
    rw [hs7]
    exact pySub_nomatch_preserve (by decide) (by decide) (by decide) patChars_PATHW
      pf_PATHW (by decide) (by decide) (by decide) hPW6
  have hPW8 : NoMatchAll RX_PATH_WIN s8 := by
    rw [hs8]
    exact pySub_nomatch_preserve (by decide) (by decide) (by decide) patChars_PATHW
      pf_PATHW (by decide) (by decide) (by decide) hPW7
  have hPW9 : NoMatchAll RX_PATH_WIN s9 := by
    rw [hs9]
    exact pySub_nomatch_preserve (by decide) (by decide) (by decide) patChars_PATHW
      pf_PATHW (by decide) (by decide) (by decide) hPW8
  have hPW10 : NoMatchAll RX_PATH_WIN s10 := by
    rw [hs10]
    exact pySub_nomatch_preserve (by decide) (by decide) (by decide) patChars_PATHW
      pf_PATHW (by decide) (by decide) (by decide) hPW9
  have hPW11 : NoMatchAll RX_PATH_WIN s11 := by
    rw [hs11]
    exact pySub_nomatch_preserve (by decide) (by decide) (by decide) patChars_PATHW
      pf_PATHW (by decide) (by decide) (by decide) hPW10
  have hPW12 : NoMatchAll RX_PATH_WIN s12 := by
    rw [hs12]
    exact pySub_nomatch_preserve (by decide) (by decide) (by decide) patChars_PATHW
      pf_PATHW (by decide) (by decide) (by decide) hPW11
  have hPW13 : NoMatchAll RX_PATH_WIN s13 := by
    rw [hs13]
    exact pySub_nomatch_preserve (by decide) (by decide) (by decide) patChars_PATHW
      pf_PATHW (by decide) (by decide) (by decide) hPW12
  have hPWo : NoMatchAll RX_PATH_WIN o := by
    rw [ho]
    exact noMatchAll_within hPW13 (pyStrip_within s13)
  have hPWm : hasMatch RX_PATH_WIN o = false := noMatchAll_hasMatch (by decide) (by decide) hPWo
  have hSE10 : NoMatchAll RX_SEP_EQ s10 := by
    rw [hs10]
    exact pySub_nomatch_self (by decide) (by decide) patChars_SEPE pf_SEPE
      (by decide) (by decide) (by decide) s9
  have hSE11 : NoMatchAll RX_SEP_EQ s11 := by
    rw [hs11]
    exact pySub_nomatch_preserve (by decide) (by decide) (by decide) patChars_SEPE
      pf_SEPE (by decide) (by decide) (by decide) hSE10
  have hSE12 : NoMatchAll RX_SEP_EQ s12 := by
    rw [hs12]
    exact pySub_nomatch_preserve (by decide) (by decide) (by decide) patChars_SEPE
      pf_SEPE (by decide) (by decide) (by decide) hSE11
  have hSE13 : NoMatchAll RX_SEP_EQ s13 := by
    rw [hs13]
    exact pySub_nomatch_preserve (by decide) (by decide) (by decide) patChars_SEPE
      pf_SEPE (by decide) (by decide) (by decide) hSE12
  have hSEo : NoMatchAll RX_SEP_EQ o := by
    rw [ho]
    exact noMatchAll_within hSE13 (pyStrip_within s13)
  have hSEm : hasMatch RX_SEP_EQ o = false := noMatchAll_hasMatch (by decide) (by decide) hSEo
  have hSS11 : NoMatchAll RX_SEP_STAR s11 := by
    rw [hs11]
    exact pySub_nomatch_self (by decide) (by decide) patChars_SEPS pf_SEPS
      (by decide) (by decide) (by decide) s10
  have hSS12 : NoMatchAll RX_SEP_STAR s12 := by
    rw [hs12]
    exact pySub_nomatch_preserve (by decide) (by decide) (by decide) patChars_SEPS
      pf_SEPS (by decide) (by decide) (by decide) hSS11
  have hSS13 : NoMatchAll RX_SEP_STAR s13 := by
    rw [hs13]
    exact pySub_nomatch_preserve (by decide) (by decide) (by decide) patChars_SEPS
      pf_SEPS (by decide) (by decide) (by decide) hSS12
  have hSSo : NoMatchAll RX_SEP_STAR o := by
    rw [ho]
    exact noMatchAll_within hSS13 (pyStrip_within s13)
  have hSSm : hasMatch RX_SEP_STAR o = false := noMatchAll_hasMatch (by decide) (by decide) hSSo
  have hSD12 : NoMatchAll RX_SEP_DASH s12 := by
    rw [hs12]
    exact pySub_nomatch_self (by decide) (by decide) patChars_SEPD pf_SEPD
      (by decide) (by decide) (by decide) s11
  have hSD13 : NoMatchAll RX_SEP_DASH s13 := by
    rw [hs13]
    exact pySub_nomatch_preserve (by decide) (by decide) (by decide) patChars_SEPD
      pf_SEPD (by decide) (by decide) (by decide) hSD12
  have hSDo : NoMatchAll RX_SEP_DASH o := by
    rw [ho]
    exact noMatchAll_within hSD13 (pyStrip_within s13)
  have hSDm : hasMatch RX_SEP_DASH o = false := noMatchAll_hasMatch (by decide) (by decide) hSDo
  have hTSo : NoMatchAll RX_TIMESTAMP o := timestamp_from_date hDo
  have hTSm : hasMatch RX_TIMESTAMP o = false :=
    noMatchAll_hasMatch (by decide) (by decide) hTSo
  have hI6 : NoBPos isIdChar 8 none s6 := by
    rw [hs6]
    exact subRel_self_bPat (by omega) (by decide) (by decide) (by decide) (by decide)
      (tails_check (by decide)) (pySub_subRel (by decide) (("<ID>").data) s5) none (Or.inl rfl)
  have hI7 : NoBPos isIdChar 8 none s7 := by
    rw [hs7]
    exact subRel_preserve_bPat (by omega) (by decide) (by decide) (by decide) (by decide)
      (tails_check (by decide)) (bPat_hq1 (by omega)) bPat_hq2
      (pySub_subRel (by decide) (("<HEX>").data) s6) none (Or.inl rfl) hI6
  have hI8 : NoBPos isIdChar 8 none s8 := by
    rw [hs8]
    exact subRel_preserve_bPat (by omega) (by decide) (by decide) (by decide) (by decide)
      (tails_check (by decide)) (bPat_hq1 (by omega)) bPat_hq2
      (pySub_subRel (by decide) (("<DEC>").data) s7) none (Or.inl rfl) hI7
  have hI9 : NoBPos isIdChar 8 none s9 := by
    rw [hs9]
    exact subRel_preserve_bPat (by omega) (by decide) (by decide) (by decide) (by decide)
      (tails_check (by decide)) seq_wb_hq1 (seq_tail_hq2 (seq_tail_hq2 (seq_tail_hq2 (seq_tail_hq2 (seq_tail_hq2 (seq_tail_hq2 wb_lit_hq2))))))
      (pySub_subRel (by decide) (("<FLOAT>").data) s8) none (Or.inl rfl) hI8
  have hI10 : NoBPos isIdChar 8 none s10 := by
    rw [hs10]
    exact subRel_preserve_bPat (by omega) (by decide) (by decide) (by decide) (by decide)
      (tails_check (by decide)) (cls_hq1 isEq_not_word (by omega)) (cls_hq2 isEq_not_word (by omega))
      (pySub_subRel (by decide) (("<SEP>").data) s9) none (Or.inl rfl) hI9
  have hI11 : NoBPos isIdChar 8 none s11 := by
    rw [hs11]
    exact subRel_preserve_bPat (by omega) (by decide) (by decide) (by decide) (by decide)
      (tails_check (by decide)) (cls_hq1 isStar_not_word (by omega)) (cls_hq2 isStar_not_word (by omega))
      (pySub_subRel (by decide) (("<SEP>").data) s10) none (Or.inl rfl) hI10
  have hI12 : NoBPos isIdChar 8 none s12 := by
    rw [hs12]
    exact subRel_preserve_bPat (by omega) (by decide) (by decide) (by decide) (by decide)
      (tails_check (by decide)) (cls_hq1 isDash_not_word (by omega)) (cls_hq2 isDash_not_word (by omega))
      (pySub_subRel (by decide) (("<SEP>").data) s11) none (Or.inl rfl) hI11
  have hI13 : NoBPos isIdChar 8 none s13 := by
    rw [hs13]
    exact subRel_preserve_bPat (by omega) (by decide) (by decide) (by decide) (by decide)
      (tails_check (by decide)) (cls_hq1 isSpaceTab_not_word (by omega)) (cls_hq2 isSpaceTab_not_word (by omega))
      (pySub_subRel (by decide) ([' ']) s12) none (Or.inl rfl) hI12
  have hC8 : NoBPos isDigit 1 none s8 := by
    rw [hs8]
    exact subRel_self_bPat (by omega) (by decide) (by decide) (by decide) (by decide)
      (tails_check (by decide)) (pySub_subRel (by decide) (("<DEC>").data) s7) none (Or.inl rfl)
  have hC9 : NoBPos isDigit 1 none s9 := by
    rw [hs9]
    exact subRel_preserve_bPat (by omega) (by decide) (by decide) (by decide) (by decide)
      (tails_check (by decide)) seq_wb_hq1 (seq_tail_hq2 (seq_tail_hq2 (seq_tail_hq2 (seq_tail_hq2 (seq_tail_hq2 (seq_tail_hq2 wb_lit_hq2))))))
      (pySub_subRel (by decide) (("<FLOAT>").data) s8) none (Or.inl rfl) hC8
  have hC10 : NoBPos isDigit 1 none s10 := by
    rw [hs10]
    exact subRel_preserve_bPat (by omega) (by decide) (by decide) (by decide) (by decide)
      (tails_check (by decide)) (cls_hq1 isEq_not_word (by omega)) (cls_hq2 isEq_not_word (by omega))
      (pySub_subRel (by decide) (("<SEP>").data) s9) none (Or.inl rfl) hC9
  have hC11 : NoBPos isDigit 1 none s11 := by
    rw [hs11]
    exact subRel_preserve_bPat (by omega) (by decide) (by decide) (by decide) (by decide)
      (tails_check (by decide)) (cls_hq1 isStar_not_word (by omega)) (cls_hq2 isStar_not_word (by omega))
      (pySub_subRel (by decide) (("<SEP>").data) s10) none (Or.inl rfl) hC10
  have hC12 : NoBPos isDigit 1 none s12 := by
    rw [hs12]
    exact subRel_preserve_bPat (by omega) (by decide) (by decide) (by decide) (by decide)
      (tails_check (by decide)) (cls_hq1 isDash_not_word (by omega)) (cls_hq2 isDash_not_word (by omega))
      (pySub_subRel (by decide) (("<SEP>").data) s11) none (Or.inl rfl) hC11
  have hC13 : NoBPos isDigit 1 none s13 := by
    rw [hs13]
    exact subRel_preserve_bPat (by omega) (by decide) (by decide) (by decide) (by decide)
      (tails_check (by decide)) (cls_hq1 isSpaceTab_not_word (by omega)) (cls_hq2 isSpaceTab_not_word (by omega))
      (pySub_subRel (by decide) ([' ']) s12) none (Or.inl rfl) hC12
  have hIo : NoBPos isIdChar 8 none o := by
    rw [ho]
    exact noBPos_strip (by omega) pySpace_facts_id hI13
  have hIm : hasMatch RX_ID o = false :=
    (hasMatchAux_bPat_false_iff (by omega) none o).mpr hIo
  have hHm : hasMatch RX_HEX o = false := by
    have h2 : NoBPos isHex 8 none o := fun a t hat hb =>
      hIo a t hat (bmatch_mono_class (fun c hc => by simp [isIdChar, hc]) hb)
    exact (hasMatchAux_bPat_false_iff (by omega) none o).mpr h2
  have hCo : NoBPos isDigit 1 none o := by
    rw [ho]
    exact noBPos_strip (by omega) pySpace_facts_digit hC13
  have hDECm : hasMatch RX_DEC o = false :=
    (hasMatchAux_bPat_false_iff (by omega) none o).mpr hCo
  have hFm : hasMatch RX_FLOAT o = false := float_no_match hCo
  have hWn : noTwo isSpaceTab false s13 := by
    rw [hs13]
    exact subRel_ws_noTwo (pySub_subRel (by decide) ([' ']) s12) false (Or.inl rfl)
  have hWo : NoMatchAll RX_WS o := by
    rw [ho]
    exact noMatchAll_within (noTwo_noMatchAll hWn) (pyStrip_within s13)
  have hWm : hasMatch RX_WS o = false := noMatchAll_hasMatch (by decide) (by decide) hWo
  rw [clean_line_chars_eq o]
  rw [pySub_id hTSm, pySub_id hDm, pySub_id hTm, pySub_id hPUm, pySub_id hPWm,
    pySub_id hIm, pySub_id hHm, pySub_id hDECm, pySub_id hFm, pySub_id hSEm,
    pySub_id hSSm, pySub_id hSDm, pySub_id hWm]
  rw [ho]
  exact pyStrip_idem s13

theorem clean_line_idem (l : String) : clean_line (clean_line l) = clean_line l :=
  congrArg String.mk (clean_line_chars_idem l.data)

theorem keep_step_inv {l out : String} {m : Mode} (h : keep_step l = (some out, m)) :
    out = l ∧ m = Mode.keep := by
  rw [keep_step] at h
  split at h
  · simp at h
  · split at h
    · simp at h
    · split at h
      · simp at h
      · injection h with h1 h2
        injection h1 with h1
        exact ⟨h1.symm, h2.symm⟩

theorem clean_doc_aux_cons (mode : Mode) (line : String) (rest : List String) :
    clean_doc_aux mode (line :: rest) =
      if (clean_line line = "" || common_line (clean_line line)) then
        clean_doc_aux mode rest
      else
        match mode with
        | Mode.star =>
          if py_startswith (clean_line line) ("*") then clean_doc_aux Mode.star rest
          else keep_eval (fun m => clean_doc_aux m rest) (clean_line line)
        | Mode.panic =>
          if py_startswith (clean_line line) ("<DEC>: ") then clean_doc_aux Mode.panic rest
          else keep_eval (fun m => clean_doc_aux m rest) (clean_line line)
        | Mode.block =>
          if clean_line line = ("\x7d") then clean_doc_aux Mode.keep rest
          else clean_doc_aux Mode.block rest
        | Mode.keep => keep_eval (fun m => clean_doc_aux m rest) (clean_line line) := rfl

theorem clean_doc_aux_mem :
    ∀ (lines : List String) (mode : Mode) (x : String), x ∈ clean_doc_aux mode lines →
      (∃ y ∈ lines, x = clean_line y) ∧ x ≠ "" ∧ common_line x = false
      ∧ keep_step x = (some x, Mode.keep) := by
  intro lines
  induction lines with
  | nil =>
    intro mode x hx
    simp [clean_doc_aux] at hx
  | cons line rest ih =>
    intro mode x hx
    rw [clean_doc_aux_cons] at hx
    have hlift : x ∈ clean_doc_aux Mode.keep rest ∨ x ∈ clean_doc_aux Mode.star rest
        ∨ x ∈ clean_doc_aux Mode.panic rest ∨ x ∈ clean_doc_aux Mode.block rest →
        (∃ y ∈ line :: rest, x = clean_line y) ∧ x ≠ "" ∧ common_line x = false
        ∧ keep_step x = (some x, Mode.keep) := by
      intro hcase
      have hr : ∃ m2, x ∈ clean_doc_aux m2 rest := by
        rcases hcase with h | h | h | h
        · exact ⟨Mode.keep, h⟩
        · exact ⟨Mode.star, h⟩
        · exact ⟨Mode.panic, h⟩
        · exact ⟨Mode.block, h⟩
      obtain ⟨m2, hm2⟩ := hr
      obtain ⟨⟨y, hy, he⟩, h2, h3, h4⟩ := ih m2 x hm2
      exact ⟨⟨y, List.mem_cons_of_mem _ hy, he⟩, h2, h3, h4⟩
    have hkeval : x ∈ keep_eval (fun m => clean_doc_aux m rest) (clean_line line) →
        ¬((clean_line line = "" || common_line (clean_line line)) = true) →
        (∃ y ∈ line :: rest, x = clean_line y) ∧ x ≠ "" ∧ common_line x = false
        ∧ keep_step x = (some x, Mode.keep) := by
      intro hx2 hcond
      rcases hks : keep_step (clean_line line) with ⟨os, m⟩
      cases os with
      | none =>
        simp only [keep_eval, hks] at hx2
        exact hlift (by
          cases m with
          | keep => exact Or.inl hx2
          | star => exact Or.inr (Or.inl hx2)
          | panic => exact Or.inr (Or.inr (Or.inl hx2))
          | block => exact Or.inr (Or.inr (Or.inr hx2)))
      | some out =>
        obtain ⟨rfl, rfl⟩ := keep_step_inv hks
        simp only [keep_eval, hks] at hx2
        rcases List.mem_cons.mp hx2 with rfl | hx3
        · simp only [Bool.or_eq_true, decide_eq_true_eq, not_or] at hcond
          refine ⟨⟨line, by simp, rfl⟩, hcond.1, ?_, hks⟩
          cases hcc : common_line (clean_line line)
          · rfl
          · exact absurd hcc hcond.2
        · exact hlift (Or.inl hx3)
    split at hx
    · exact hlift (by
        cases mode with
        | keep => exact Or.inl hx
        | star => exact Or.inr (Or.inl hx)
        | panic => exact Or.inr (Or.inr (Or.inl hx))
        | block => exact Or.inr (Or.inr (Or.inr hx)))
    · next hcond =>
      cases mode with
      | star =>
        by_cases hsw : py_startswith (clean_line line) ("*") = true
        · rw [if_pos hsw] at hx
          exact hlift (Or.inr (Or.inl hx))
        · rw [if_neg hsw] at hx
          exact hkeval hx hcond
      | panic =>
        by_cases hsw : py_startswith (clean_line line) ("<DEC>: ") = true
        · rw [if_pos hsw] at hx
          exact hlift (Or.inr (Or.inr (Or.inl hx)))
        · rw [if_neg hsw] at hx
          exact hkeval hx hcond
      | block =>
        by_cases hbr : clean_line line = ("\x7d")
        · rw [if_pos hbr] at hx
          exact hlift (Or.inl hx)
        · rw [if_neg hbr] at hx
          exact hlift (Or.inr (Or.inr (Or.inr hx)))
      | keep => exact hkeval hx hcond

theorem clean_doc_aux_fixed :
    ∀ (ls : List String),
      (∀ x ∈ ls, clean_line x = x ∧ x ≠ "" ∧ common_line x = false
        ∧ keep_step x = (some x, Mode.keep)) →
      clean_doc_aux Mode.keep ls = ls := by
  intro ls
  induction ls with
  | nil => intro _; rfl
  | cons x rest ih =>
    intro h
    obtain ⟨hcl, hne, hcom, hks⟩ := h x (by simp)
    rw [clean_doc_aux_cons, hcl]
    rw [if_neg (by simp [hne, hcom])]
    simp only [keep_eval, hks]
    rw [ih (fun y hy => h y (by simp [hy]))]

theorem splitNl_single : ∀ (g : List Char), ('\n') ∉ g → splitNlChars g = [g] := by
  intro g
  induction g with
  | nil => intro _; rfl
  | cons c t ih =>
    intro h
    simp at h
    rw [splitNlChars, if_neg (fun he => h.1 he.symm)]
    rw [ih h.2]

theorem splitNl_append : ∀ (g rest : List Char), ('\n') ∉ g →
    splitNlChars (g ++ '\n' :: rest) = g :: splitNlChars rest := by
  intro g
  induction g with
  | nil =>
    intro rest _
    rw [List.nil_append, splitNlChars, if_pos rfl]
  | cons c t ih =>
    intro rest h
    simp at h
    rw [List.cons_append, splitNlChars, if_neg (fun he => h.1 he.symm)]
    rw [ih rest h.2]

theorem splitNl_joinNl : ∀ (ls : List (List Char)), (∀ l ∈ ls, ('\n') ∉ l) → ls ≠ [] →
    splitNlChars (joinNl ls) = ls := by
  intro ls
  induction ls with
  | nil => intro _ h; exact absurd rfl h
  | cons g gs ih =>
    intro h _
    cases gs with
    | nil =>
      rw [joinNl]
      exact splitNl_single g (h g (by simp))
    | cons g2 gs2 =>
      rw [joinNl]
      rw [splitNl_append g _ (h g (by simp))]
      rw [ih (fun l hl => h l (by simp [hl])) (List.cons_ne_nil g2 gs2)]
      exact fun h0 => absurd h0 (List.cons_ne_nil g2 gs2)

theorem splitNlChars_no_nl : ∀ (s : List Char) (g : List Char),
    g ∈ splitNlChars s → ('\n') ∉ g := by
  intro s
  induction s with
  | nil =>
    intro g hg
    rw [splitNlChars] at hg
    simp at hg
    subst hg
    simp
  | cons c cs ih =>
    intro g hg
    rw [splitNlChars] at hg
    split at hg
    · rcases List.mem_cons.mp hg with rfl | hg2
      · simp
      · exact ih g hg2
    · next hc =>
      rcases hsp : splitNlChars cs with _ | ⟨g0, gs⟩
      · rw [hsp] at hg
        simp at hg
        subst hg
        intro hm
        simp at hm
        exact hc hm.symm
      · rw [hsp] at hg
        rcases List.mem_cons.mp hg with rfl | hg2
        · intro hmem
          rcases List.mem_cons.mp hmem with he | hmem2
          · exact hc he.symm
          · exact ih g0 (by rw [hsp]; simp) hmem2
        · exact ih g (by rw [hsp]; simp [hg2])

theorem pySub_chars {q : Pat} (hq : 1 ≤ minConsume q) (r s : List Char) :
    ∀ c ∈ pySub q r s, c ∈ s ∨ c ∈ r :=
  subRel_chars (pySub_subRel hq r s)

theorem clean_line_no_nl (line : List Char) (h : ('\n') ∉ line) :
    ('\n') ∉ clean_line_chars line := by
  rw [clean_line_chars_eq]
  intro hmem
  have m13 := (pyStrip_within _).subset hmem
  rcases pySub_chars (by decide) _ _ _ m13 with m12 | hr
  swap
  · simp at hr
  rcases pySub_chars (by decide) _ _ _ m12 with m11 | hr
  swap
  · revert hr; decide
  rcases pySub_chars (by decide) _ _ _ m11 with m10 | hr
  swap
  · revert hr; decide
  rcases pySub_chars (by decide) _ _ _ m10 with m9 | hr
  swap
  · revert hr; decide
  rcases pySub_chars (by decide) _ _ _ m9 with m8 | hr
  swap
  · revert hr; decide
  rcases pySub_chars (by decide) _ _ _ m8 with m7 | hr
  swap
  · revert hr; decide
  rcases pySub_chars (by decide) _ _ _ m7 with m6 | hr
  swap
  · revert hr; decide
  rcases pySub_chars (by decide) _ _ _ m6 with m5 | hr
  swap
  · revert hr; decide
  rcases pySub_chars (by decide) _ _ _ m5 with m4 | hr
  swap
  · revert hr; decide
  rcases pySub_chars (by decide) _ _ _ m4 with m3 | hr
  swap
  · revert hr; decide
  rcases pySub_chars (by decide) _ _ _ m3 with m2 | hr
  swap
  · revert hr; decide
  rcases pySub_chars (by decide) _ _ _ m2 with m1 | hr
  swap
  · revert hr; decide
  rcases pySub_chars (by decide) _ _ _ m1 with m0 | hr
  swap
  · revert hr; decide
  exact h m0

theorem string_mk_data (s : String) : String.mk s.data = s := rfl

/-- Claim C3: the normalization applied to each test output — per-line masking
by `clean_line` followed by the stateful line-skip scanner `clean_doc`, i.e.
joining `clean_doc` over the newline split — is idempotent: normalizing the
result of normalizing any string yields the same string as normalizing once. -/
theorem normalization_idempotent (s : String) :
    cleaned_stdout (cleaned_stdout s) = cleaned_stdout s := by
  have hfacts : ∀ x ∈ clean_doc (py_split_nl s),
      clean_line x = x ∧ x ≠ "" ∧ common_line x = false
      ∧ keep_step x = (some x, Mode.keep) := by
    intro x hx
    obtain ⟨⟨y, hy, he⟩, h2, h3, h4⟩ := clean_doc_aux_mem (py_split_nl s) Mode.keep x hx
    refine ⟨?_, h2, h3, h4⟩
    rw [he]
    exact clean_line_idem y
  have hnl : ∀ x ∈ clean_doc (py_split_nl s), ('\n') ∉ x.data := by
    intro x hx
    obtain ⟨⟨y, hy, he⟩, _, _, _⟩ := clean_doc_aux_mem (py_split_nl s) Mode.keep x hx
    rw [he]
    show ('\n') ∉ clean_line_chars y.data
    rw [py_split_nl, List.mem_map] at hy
    obtain ⟨g, hg, rfl⟩ := hy
    exact clean_line_no_nl g (splitNlChars_no_nl s.data g hg)
  rcases hds : clean_doc (py_split_nl s) with _ | ⟨d, ds⟩
  · have h1 : cleaned_stdout s = "" := by
      rw [cleaned_stdout, hds]
      rfl
    rw [h1]
    decide
  · have hnonl : ∀ l ∈ (d :: ds).map String.data, ('\n') ∉ l := by
      intro l hl
      rw [List.mem_map] at hl
      obtain ⟨t, ht, rfl⟩ := hl
      exact hnl t (by rw [hds]; exact ht)
    have hjs : py_split_nl (py_join_nl (d :: ds)) = d :: ds := by
      rw [py_join_nl, py_split_nl]
      rw [show (String.mk (joinNl ((d :: ds).map String.data))).data
          = joinNl ((d :: ds).map String.data) from rfl]
      rw [splitNl_joinNl _ hnonl (by simp)]
      rw [List.map_map]
      rw [show (String.mk ∘ String.data) = id from funext (fun t => string_mk_data t)]
      rw [List.map_id]
    have h1 : cleaned_stdout s = py_join_nl (d :: ds) := by
      rw [cleaned_stdout, hds]
    rw [show cleaned_stdout (cleaned_stdout s)
        = py_join_nl (clean_doc (py_split_nl (cleaned_stdout s))) from rfl]
    rw [h1, hjs]
    rw [show clean_doc (d :: ds) = clean_doc_aux Mode.keep (d :: ds) from rfl]
    rw [clean_doc_aux_fixed (d :: ds) (fun x hx => hfacts x (by rw [hds]; exact hx))]

end ClusterPy
